import Mathlib

/-!
Verification of the reconciliation and execution core of VibesAndFolders.

This file shallow-embeds the Go source of the repository: the ignore
matcher (`internal/app/ignore_patterns.go`, current revision with the
segment check), the index service (`index_service.go`, revision with
`maxDepth` support), the streaming operation parser (`openai_service.go`)
and the file execution service (`file_service.go`).  Pure string and path
manipulation (`strings.Split`, `filepath.Clean`, `filepath.Join`,
`filepath.Dir`, `filepath.Rel`) is embedded as executable Lean functions
over `String`; effectful calls (SQLite `Exec`, `os.Stat`, the glob
library) are passed in as explicit oracle functions so that theorems
quantify over every possible environment behaviour.

All paths are treated with the Linux separator `/`, matching the
platform the repository targets (`filepath.Separator = '/'`,
`filepath.ToSlash` is the identity, `filepath.IsAbs p` is
`strings.HasPrefix(p, "/")`).
-/

/-! ## String primitives (models of Go `strings` functions) -/

/-- Model of `strings.Split(s, sep)` for a one-character separator,
on the character-list level.  `strings.Split` of the empty string is
`[""]`, and a separator at either end produces an empty field. -/
def chSplit (c : Char) : List Char → List (List Char)
  | [] => [[]]
  | x :: xs =>
    if x = c then [] :: chSplit c xs
    else
      match chSplit c xs with
      | [] => [[x]]
      | h :: t => (x :: h) :: t

/-- Model of `strings.Split(s, string(c))`. -/
def strSplit (c : Char) (s : String) : List String :=
  (chSplit c s.toList).map (fun l => String.mk l)

/-- Join a list of strings with `/` between every pair of consecutive
elements (model of `strings.Join(xs, "/")`). -/
def joinPath : List String → String
  | [] => ""
  | [x] => x
  | x :: y :: t => x ++ "/" ++ joinPath (y :: t)

/-- Model of `strings.HasPrefix(s, pre)`. -/
def strHasPref (s pre : String) : Bool :=
  pre.toList.isPrefixOf s.toList

/-- Model of `strings.HasSuffix(s, suf)`. -/
def strHasSuf (s suf : String) : Bool :=
  suf.toList.isSuffixOf s.toList

/-- Model of `strings.TrimPrefix(s, pre)`. -/
def strTrimPref (s pre : String) : String :=
  if strHasPref s pre then String.mk (s.toList.drop pre.toList.length) else s

/-- Model of `strings.TrimSuffix(s, suf)`. -/
def strTrimSuf (s suf : String) : String :=
  if strHasSuf s suf then String.mk (s.toList.take (s.toList.length - suf.toList.length)) else s

/-- ASCII whitespace recognised by the model of `strings.TrimSpace`.
The Go function also trims the rarer Unicode space classes; the inputs
handled by this code base only contain these four. -/
def isSpaceCh (c : Char) : Bool :=
  c = ' ' || c = '\t' || c = '\n' || c = '\r'

/-- Model of `strings.TrimSpace(s)` (ASCII subset, see `isSpaceCh`). -/
def strTrim (s : String) : String :=
  String.mk (((s.toList.dropWhile isSpaceCh).reverse.dropWhile isSpaceCh).reverse)

/-- Model of `strings.Count(s, "/")`: the number of `/` characters. -/
def sepCount (s : String) : Nat :=
  s.toList.count '/'

/-- Model of `strings.Contains(s, string(c))` for one character. -/
def strContainsCh (s : String) (c : Char) : Bool :=
  s.toList.contains c

/-! ## Path functions (models of Go `path/filepath` on Linux) -/

/-- Model of `filepath.IsAbs` on Linux: the path starts with `/`. -/
def isAbsPath (p : String) : Bool :=
  strHasPref p "/"

/-- Core of `filepath.Clean`: process the `/`-separated segments left to
right, skipping empty and `.` segments, letting `..` cancel the previous
real segment (or survive / disappear at the front depending on
rootedness).  The accumulator holds the output segments in reverse. -/
def cleanFold (rooted : Bool) : List String → List String → List String
  | acc, [] => acc
  | acc, s :: rest =>
    if s = "" || s = "." then cleanFold rooted acc rest
    else if s = ".." then
      match acc with
      | [] => if rooted then cleanFold rooted [] rest else cleanFold rooted [".."] rest
      | a :: acc' =>
        if a = ".." then cleanFold rooted (".." :: a :: acc') rest
        else cleanFold rooted acc' rest
    else cleanFold rooted (s :: acc) rest

/-- Model of `filepath.Clean` on Linux (which is `path.Clean`). -/
def goClean (p : String) : String :=
  if p = "" then "."
  else
    let rooted := isAbsPath p
    let segs := (cleanFold rooted [] (strSplit '/' p)).reverse
    let out := joinPath segs
    if rooted then "/" ++ out
    else if out = "" then "." else out

/-- Model of the two-argument `filepath.Join(a, b)`: skip empty
elements, join the rest with `/`, and `Clean` the result. -/
def goJoin (a b : String) : String :=
  if a = "" && b = "" then ""
  else if a = "" then goClean b
  else if b = "" then goClean a
  else goClean (a ++ "/" ++ b)

/-- Model of the variadic `filepath.Join(elems...)`: find the first
non-empty element, join from it on (later empty elements contribute
doubled separators that `Clean` removes), and `Clean` the result. -/
def goJoinList : List String → String
  | [] => ""
  | e :: rest => if e = "" then goJoinList rest else goClean (joinPath (e :: rest))

/-- Model of `filepath.Dir(p)`: everything up to and including the final
separator, `Clean`ed; `.` when there is no separator. -/
def goDir (p : String) : String :=
  match p.toList.reverse.dropWhile (fun c => !(c = '/')) with
  | [] => "."
  | l => goClean (String.mk l.reverse)

/-- Segments of a cleaned path, with empty fields removed (for a cleaned
path the only empty fields are the artifacts of a leading `/`). -/
def segsOf (p : String) : List String :=
  (strSplit '/' p).filter (fun s => !(s = ""))

/-- Drop the common leading segments of two segment lists, returning the
two remainders.  This is the segment-level form of the prefix-alignment
loop inside `filepath.Rel`. -/
def dropCommon : List String → List String → List String × List String
  | a :: as', b :: bs' => if a = b then dropCommon as' bs' else (a :: as', b :: bs')
  | as', bs' => (as', bs')

/-- Model of `filepath.Rel(basepath, targpath)` on Linux, `none` being
the error return.  Both paths are `Clean`ed, a base of `.` becomes
empty, mixed absolute/relative inputs fail, and if base segments remain
after the common prefix the result climbs with `..` segments.  The
segment-level computation agrees with Go's byte-level loop on all
inputs because cleaned paths contain no empty interior segments. -/
def goRel (basepath targpath : String) : Option String :=
  let base0 := goClean basepath
  let targ := goClean targpath
  if targ = base0 then some "."
  else
    let base := if base0 = "." then "" else base0
    if !(isAbsPath base = isAbsPath targ) then none
    else
      let rest := dropCommon (segsOf base) (segsOf targ)
      match rest.1 with
      | [] => some (joinPath rest.2)
      | b :: brem =>
        if b = ".." then none
        else some (joinPath (List.replicate (brem.length + 1) ".." ++ rest.2))

/-- Render an absolute path from good segments: `/` for the empty list,
otherwise `/` followed by the `/`-joined segments. -/
def renderAbs (segs : List String) : String :=
  if segs = [] then "/" else "/" ++ joinPath segs

/-- A good path segment: non-empty, not `.`, not `..`, and free of the
separator. -/
def goodSeg (s : String) : Bool :=
  !(s = "") && !(s = ".") && !(s = "..") && !(strContainsCh s '/')

/-- Well-formed absolute path: `Clean`ed, rooted, with good segments.
Equivalently, the path is `/` or `/` followed by slash-joined good
segments. -/
def wfAbs (p : String) : Bool :=
  isAbsPath p && (segsOf p).all goodSeg && (renderAbs (segsOf p) = p)

/-! ## Ignore matcher (`internal/app/ignore_patterns.go`, current revision
with the any-level segment check, also found as `src/unnamed/part_000`) -/

/-- Model of `NewIgnorePatternMatcher`: split the pattern text into
lines, trim each, and drop blank lines and `#` comments. -/
def parseIgnorePatterns (text : String) : List String :=
  ((strSplit '\n' text).map strTrim).filter
    (fun l => !(l = "") && !(strHasPref l "#"))

/-- One pattern of `ShouldIgnore`'s loop body.  `globO` is the oracle
standing for the third-party `doublestar.Match` library call: `none`
models a pattern error, `some b` a successful match result.  The four
directory-pattern checks and the plain-glob branch follow the source
line by line; the candidate path is already slash-normalised
(`filepath.ToSlash` is the identity on Linux). -/
def matchOnePattern (globO : String → String → Option Bool)
    (pattern path : String) (isDir : Bool) : Bool :=
  let isDirPattern := strHasSuf pattern "/"
  let pws := strTrimSuf pattern "/"
  if isDirPattern then
    (isDir && (path = pws || strHasPref path (pws ++ "/")))
    || (!isDir && strHasPref path (pws ++ "/"))
    || (if !(strContainsCh pws '*') && !(strContainsCh pws '?') then
          (strSplit '/' path).any (fun part => part = pws)
        else false)
    || (match globO pws path with | some b => b | none => false)
  else
    match globO pattern path with | some b => b | none => false

/-- Model of `IgnorePatternMatcher.ShouldIgnore`: no pattern matching
returns `false`; the first matching pattern returns `true` (the loop
only ever exits early with `true`, so this is a disjunction). -/
def shouldIgnore (patterns : List String) (globO : String → String → Option Bool)
    (path : String) (isDir : Bool) : Bool :=
  if patterns.length = 0 then false
  else patterns.any (fun pattern => matchOnePattern globO pattern path isDir)

/-! ## SQL LIKE (SQLite default semantics used by the index queries) -/

/-- ASCII-only lower-case fold: SQLite's default `LIKE` treats the
ASCII letters case-insensitively and everything else literally. -/
def likeFold (c : Char) : Char :=
  if 'A' ≤ c && c ≤ 'Z' then Char.ofNat (c.toNat + 32) else c

/-- Try a predicate on every suffix of a character list (used to give
`%` its any-sequence meaning by structural recursion). -/
def anySuffix (f : List Char → Bool) : List Char → Bool
  | [] => f []
  | c :: s' => f (c :: s') || anySuffix f s'

/-- SQLite `LIKE` matching over character lists: `%` matches any
sequence (some suffix of the text matches the rest of the pattern),
`_` matches exactly one character, anything else compares
ASCII-case-insensitively.  No ESCAPE clause is in effect (none is used
by the source queries). -/
def likeMatchL : List Char → List Char → Bool
  | [], s => s.isEmpty
  | p :: ps, s =>
    if p = '%' then anySuffix (likeMatchL ps) s
    else
      match s with
      | [] => false
      | c :: s' =>
        if p = '_' then likeMatchL ps s'
        else likeFold p = likeFold c && likeMatchL ps s'

/-- Model of `x LIKE pattern` in SQLite with default settings. -/
def sqlLike (pattern s : String) : Bool :=
  likeMatchL pattern.toList s.toList

/-! ## Index store model (`index_service.go` / `src/unnamed/part_002`)

The `indexed_files` table is modelled as a list of rows; `file_path` is
UNIQUE by schema.  The audit columns `id`, `indexed_at` and
`updated_at` are omitted: no claim depends on them.  `last_modified`
is the Unix-seconds integer the source stores. -/

/-- Model of one `indexed_files` row / the `IndexedFile` struct. -/
structure IndexedFileRec where
  FilePath : String
  Description : String
  FileType : String
  FileSize : Int
  LastModified : Int
  SymlinkTarget : Option String
deriving DecidableEq, Repr

/-- Errors surfaced by the effectful index-store operations. -/
inductive GoErr where
  | statErr
  | dbErr
  | execErr
  | txErr
  | countErr
deriving DecidableEq, Repr

/-- Decidable equality for `Except` results (used to state concrete
evaluations of the fallible operations). -/
instance {ε α : Type} [DecidableEq ε] [DecidableEq α] : DecidableEq (Except ε α) := fun x y =>
  match x, y with
  | .ok a, .ok b =>
    if h : a = b then isTrue (by rw [h]) else isFalse (by intro hc; cases hc; exact h rfl)
  | .ok _, .error _ => isFalse (by intro hc; cases hc)
  | .error _, .ok _ => isFalse (by intro hc; cases hc)
  | .error e, .error e' =>
    if h : e = e' then isTrue (by rw [h]) else isFalse (by intro hc; cases hc; exact h rfl)

/-- Model of `SELECT ... WHERE file_path = ?` returning at most one row
(`file_path` is UNIQUE). -/
def lookupRow (idx : List IndexedFileRec) (p : String) : Option IndexedFileRec :=
  idx.find? (fun r => r.FilePath = p)

/-- Model of `IsFileIndexed`: `SELECT COUNT(*) ... WHERE file_path = ?`
compared with zero. -/
def isFileIndexed (idx : List IndexedFileRec) (p : String) : Bool :=
  (lookupRow idx p).isSome

/-- Model of `NeedsReindexing`.  `statMtime` is the `os.Stat` oracle
(`none` is a stat failure, `some m` the live modification time in Unix
seconds).  The source returns `(true, nil)` for an unindexed path, and
otherwise compares the live mtime with the stored `last_modified`. -/
def needsReindexing (idx : List IndexedFileRec) (statMtime : String → Option Int)
    (p : String) : Except GoErr Bool :=
  if !(isFileIndexed idx p) then .ok true
  else
    match statMtime p with
    | none => .error .statErr
    | some cur =>
      match lookupRow idx p with
      | none => .error .dbErr
      | some row => .ok (decide (cur ≠ row.LastModified))

/-- The cleaned, separator-terminated directory prefix that
`GetIndexedFilesInDirectory` builds before appending `%`. -/
def dirSepTerm (dirPath : String) : String :=
  let p := goClean dirPath
  if strHasSuf p "/" then p else p ++ "/"

/-- The LIKE pattern built by `GetIndexedFilesInDirectory`: the cleaned
directory, separator-terminated, followed by `%`. -/
def dirPattern (dirPath : String) : String :=
  dirSepTerm dirPath ++ "%"

/-- Model of `GetIndexedFilesInDirectory`: the rows satisfying
`file_path LIKE pattern OR file_path = Clean(dirPath)`.  The `LIKE`
comparison has SQLite's default semantics (`sqlLike`), the equality is
binary. -/
def getIndexedFilesInDirectory (idx : List IndexedFileRec) (dirPath : String) :
    List IndexedFileRec :=
  idx.filter (fun r => sqlLike (dirPattern dirPath) r.FilePath || r.FilePath = goClean dirPath)

/-! ## Change scanner (`ScanDirectoryChanges`, `src/unnamed/part_002`
lines 342-442, the revision with depth bounding)

The on-disk state is the visit sequence that `filepath.Walk(dirPath,
...)` produces below the root: one entry per filesystem object in
lexical depth-first order, carrying its path relative to the scanned
directory (slash-joined, which is what `filepath.ToSlash(filepath.Rel
(dirPath, path))` yields for walk paths), whether it is a directory,
and its modification time.  The walk callback is split into two
faithful halves: `walkVisit` applies the source's skip logic — an
ignored or out-of-depth entry is dropped, and for a directory
`filepath.SkipDir` additionally prunes every later entry inside it —
and `classifyStep` is the per-file classification body. -/

/-- One entry of the `filepath.Walk` visit sequence below the root. -/
structure WalkEntry where
  rel : String
  isDir : Bool
  mtime : Int
deriving Repr, DecidableEq

/-- Depth of `p` relative to `dirPath` as the source computes it:
`strings.Count(filepath.Clean(p), "/") - strings.Count(filepath.Clean(dirPath), "/")`. -/
def depthOfIn (dirPath p : String) : Int :=
  (sepCount (goClean p) : Int) - (sepCount (goClean dirPath) : Int)

/-- Whether a relative path lies at or below one of the pruned
directories (the effect of an earlier `filepath.SkipDir` on the rest
of the walk). -/
def underSkipped (skips : List String) (rel : String) : Bool :=
  skips.any (fun sk => rel = sk || strHasPref rel (sk ++ "/"))

/-- One step of the walk: `skips` holds the subtrees pruned so far,
`files` the surviving file paths with their walk-time mtimes.  The
ignore check runs first (the root itself is not in the sequence, so
the source's `path != dirPath` guard is always true here), then the
depth bound; a directory failing either check is pruned via
`filepath.SkipDir`, a file is merely skipped.  `patterns = none`
models a service with no ignore matcher configured. -/
def walkStep (patterns : Option (List String)) (globO : String → String → Option Bool)
    (dirPath : String) (maxDepth : Int) (acc : List String × List (String × Int))
    (e : WalkEntry) : List String × List (String × Int) :=
  let (skips, files) := acc
  if underSkipped skips e.rel then acc
  else
    let path := dirPath ++ "/" ++ e.rel
    let ignored := match patterns with
      | some pats => shouldIgnore pats globO e.rel e.isDir
      | none => false
    if ignored then
      if e.isDir then (skips ++ [e.rel], files) else acc
    else if 0 < maxDepth && maxDepth < depthOfIn dirPath path then
      if e.isDir then (skips ++ [e.rel], files) else acc
    else if e.isDir then acc
    else (skips, files ++ [(path, e.mtime)])

/-- The file paths (with mtimes) that the walk of `ScanDirectoryChanges`
reaches: the entries surviving ignore pruning and depth bounding. -/
def walkVisit (patterns : Option (List String)) (globO : String → String → Option Bool)
    (dirPath : String) (maxDepth : Int) (entries : List WalkEntry) :
    List (String × Int) :=
  (entries.foldl (walkStep patterns globO dirPath maxDepth) ([], [])).2

/-- The four classification lists of `ScanDirectoryChanges` plus the
`currentFiles` set the walk accumulates. -/
structure ScanState where
  newFiles : List String
  modifiedFiles : List String
  unchangedFiles : List String
  currentFiles : List String
deriving Repr, DecidableEq

/-- Membership of a path in the `indexedMap` built from
`GetIndexedFilesInDirectory` (the map is keyed by `FilePath`). -/
def inIndexedMap (idx : List IndexedFileRec) (dirPath p : String) : Bool :=
  (getIndexedFilesInDirectory idx dirPath).any (fun r => r.FilePath = p)

/-- Per-file body of the walk callback of `ScanDirectoryChanges`: the
path is recorded in `currentFiles`; an indexed path is classified by
`NeedsReindexing` (a `NeedsReindexing` error is logged and the file
classified nowhere), an unindexed path is new. -/
def classifyStep (idx : List IndexedFileRec) (dirPath : String)
    (statMtime : String → Option Int) (st : ScanState) (path : String) : ScanState :=
  let st := { st with currentFiles := st.currentFiles ++ [path] }
  if inIndexedMap idx dirPath path then
    match needsReindexing idx statMtime path with
    | .error _ => st
    | .ok true => { st with modifiedFiles := st.modifiedFiles ++ [path] }
    | .ok false => { st with unchangedFiles := st.unchangedFiles ++ [path] }
  else
    { st with newFiles := st.newFiles ++ [path] }

/-- Result type `DirectoryChanges`. -/
structure DirectoryChanges where
  NewFiles : List String
  DeletedFiles : List String
  ModifiedFiles : List String
  UnchangedFiles : List String
deriving Repr, DecidableEq

/-- The walk phase of `ScanDirectoryChanges`: classify every file the
walk reaches, in visit order. -/
def scanWalk (idx : List IndexedFileRec) (patterns : Option (List String))
    (globO : String → String → Option Bool) (statMtime : String → Option Int)
    (entries : List WalkEntry) (dirPath : String) (maxDepth : Int) : ScanState :=
  (walkVisit patterns globO dirPath maxDepth entries).foldl
    (fun st pm => classifyStep idx dirPath statMtime st pm.1)
    ⟨[], [], [], []⟩

/-- Model of `ScanDirectoryChanges(dirPath, maxDepth)`: walk and
classify, then report as deleted every indexed path within the depth
bound that the walk did not see.  (The Go source iterates the deleted
check over a map, so its order is nondeterministic; the model fixes the
row order, which no set-level statement depends on.) -/
def scanDirectoryChanges (idx : List IndexedFileRec) (patterns : Option (List String))
    (globO : String → String → Option Bool) (statMtime : String → Option Int)
    (entries : List WalkEntry) (dirPath : String) (maxDepth : Int) : DirectoryChanges :=
  let st := scanWalk idx patterns globO statMtime entries dirPath maxDepth
  let dels := ((getIndexedFilesInDirectory idx dirPath).map (fun r => r.FilePath)).filter
    (fun p => (maxDepth = 0 || decide (depthOfIn dirPath p ≤ maxDepth))
      && !(st.currentFiles.contains p))
  ⟨st.newFiles, dels, st.modifiedFiles, st.unchangedFiles⟩

/-! ## Snapshot creation (`CreateSnapshot`, `src/unnamed/part_002`
lines 487-514, identical in `internal/app/index_service.go`)

The snapshot type `map[string]*IndexedFile` is modelled as an
association list whose values are `Option IndexedFileRec`: `some` is a
captured record, `none` would be the nil "absent" marker that
`RestoreSnapshot` knows how to replay as a removal. -/

/-- Insert or overwrite one snapshot entry (Go map assignment). -/
def snapInsert (entries : List (String × Option IndexedFileRec)) (k : String)
    (v : Option IndexedFileRec) : List (String × Option IndexedFileRec) :=
  if entries.any (fun e => e.1 = k) then
    entries.map (fun e => if e.1 = k then (k, v) else e)
  else entries ++ [(k, v)]

/-- Model of `CreateSnapshot(operations)`: for each operation, look up
`op.From` and `op.To` in the index, and store an entry only when
`GetIndexedFile` returned a record (`if file != nil` in the source); a
path with no index entry stores nothing. -/
def createSnapshot (idx : List IndexedFileRec) (ops : List (String × String)) :
    List (String × Option IndexedFileRec) :=
  ops.foldl
    (fun entries op =>
      let entries := match lookupRow idx op.1 with
        | some f => snapInsert entries op.1 (some f)
        | none => entries
      match lookupRow idx op.2 with
      | some f => snapInsert entries op.2 (some f)
      | none => entries)
    []

/-! ## Index store state machine (`BeginTransaction` / `CommitTransaction`
/ `RollbackTransaction` / `IndexFile` / `RemoveFile` / `RestoreSnapshot`)

`DefaultIndexService` keeps `db *sql.DB` and `tx *sql.Tx`.  Crucially,
every write helper (`IndexFileWithSymlink`, `RemoveFile`, ...) issues
`is.db.Exec(...)`: with `database/sql` a statement on the `DB` handle
runs on a pooled connection in autocommit mode, not on the connection
holding the open `*sql.Tx` (which executes no statements at all in
`RestoreSnapshot`).  The model therefore applies every successful
`Exec` directly to the committed row set, and `Begin`/`Commit`/
`Rollback` only toggle the transaction flag.  `failAt` is the failure
oracle for `Exec` calls (disk errors, busy database, ...), indexed by a
running statement counter. -/

/-- State of the index store: committed rows, whether a transaction is
open, and the `Exec` statement counter. -/
structure DBState where
  rows : List IndexedFileRec
  txOpen : Bool
  tick : Nat
deriving Repr, DecidableEq

/-- One `is.db.Exec` call: consult the failure oracle; on success apply
the row transformation to the committed rows (autocommit). -/
def dbExec (failAt : Nat → Bool) (st : DBState)
    (f : List IndexedFileRec → List IndexedFileRec) : DBState × Option GoErr :=
  if failAt st.tick then ({ st with tick := st.tick + 1 }, some .execErr)
  else ({ st with rows := f st.rows, tick := st.tick + 1 }, none)

/-- The row effect of the upsert statement in `IndexFileWithSymlink`
(`INSERT ... ON CONFLICT(file_path) DO UPDATE SET ...`, which rewrites
every modelled column). -/
def upsertRow (rows : List IndexedFileRec) (r : IndexedFileRec) : List IndexedFileRec :=
  if rows.any (fun x => x.FilePath = r.FilePath) then
    rows.map (fun x => if x.FilePath = r.FilePath then r else x)
  else rows ++ [r]

/-- Model of `IndexFileWithSymlink`: empty symlink target becomes NULL,
then one upsert `Exec`. -/
def indexFileWithSymlinkDB (failAt : Nat → Bool) (st : DBState)
    (filePath description fileType : String) (fileSize lastModified : Int)
    (symlinkTarget : String) : DBState × Option GoErr :=
  let v := if symlinkTarget = "" then none else some symlinkTarget
  dbExec failAt st (fun rows => upsertRow rows ⟨filePath, description, fileType, fileSize, lastModified, v⟩)

/-- Model of `IndexFile`: `IndexFileWithSymlink` with an empty target. -/
def indexFileDB (failAt : Nat → Bool) (st : DBState)
    (filePath description fileType : String) (fileSize lastModified : Int) :
    DBState × Option GoErr :=
  indexFileWithSymlinkDB failAt st filePath description fileType fileSize lastModified ""

/-- Model of `RemoveFile`: one `DELETE` `Exec`. -/
def removeFileDB (failAt : Nat → Bool) (st : DBState) (p : String) : DBState × Option GoErr :=
  dbExec failAt st (fun rows => rows.filter (fun r => !(r.FilePath = p)))

/-- Model of `BeginTransaction`: fails if a transaction is already in
progress, otherwise records the open transaction. -/
def beginTransaction (st : DBState) : DBState × Option GoErr :=
  if st.txOpen then (st, some .txErr) else ({ st with txOpen := true }, none)

/-- Model of `CommitTransaction`: fails without an open transaction;
committing the statement-free transaction changes no rows. -/
def commitTransaction (st : DBState) : DBState × Option GoErr :=
  if st.txOpen then ({ st with txOpen := false }, none) else (st, some .txErr)

/-- Model of `RollbackTransaction`: fails without an open transaction;
rolling back the statement-free transaction changes no rows. -/
def rollbackTransaction (st : DBState) : DBState × Option GoErr :=
  if st.txOpen then ({ st with txOpen := false }, none) else (st, some .txErr)

/-- The replay loop of `RestoreSnapshot`: a captured record is
re-upserted via `IndexFile`, a nil entry is removed via `RemoveFile`;
the first failing step rolls the (empty) transaction back and returns
the error. -/
def restoreEntries (failAt : Nat → Bool) :
    DBState → List (String × Option IndexedFileRec) → DBState × Option GoErr
  | st, [] => (st, none)
  | st, (path, e) :: rest =>
    match e with
    | some f =>
      match indexFileDB failAt st f.FilePath f.Description f.FileType f.FileSize f.LastModified with
      | (st1, some err) => ((rollbackTransaction st1).1, some err)
      | (st1, none) => restoreEntries failAt st1 rest
    | none =>
      match removeFileDB failAt st path with
      | (st1, some err) => ((rollbackTransaction st1).1, some err)
      | (st1, none) => restoreEntries failAt st1 rest

/-- Model of `RestoreSnapshot(snapshot)`: begin a transaction, replay
every captured entry (in the model, in the given iteration order of the
snapshot map), and commit. -/
def restoreSnapshot (failAt : Nat → Bool) (st : DBState)
    (entries : List (String × Option IndexedFileRec)) : DBState × Option GoErr :=
  match beginTransaction st with
  | (st1, some e) => (st1, some e)
  | (st1, none) =>
    match restoreEntries failAt st1 entries with
    | (st2, some e) => (st2, some e)
    | (st2, none) => commitTransaction st2

/-! ## Streaming operation parser (`src/unnamed/part_011`,
`processStream` lines 83-168 and `parseSingleOperation` lines 170-194)

`FileOperation` is the struct the stream lines unmarshal into; the
struct declaration itself ships outside the given sources, but its
shape is fixed by the spec's data model and by every use site:
`Modelled from the spec:` a FileOperation is `{from: path, to: path}`
with JSON keys `from` and `to`. -/

/-- The `FileOperation` value: source and destination path. -/
structure FileOperation where
  From : String
  To : String
deriving DecidableEq, Repr

/-- Opening curly brace character. -/
def lbraceC : Char := Char.ofNat 123

/-- Closing curly brace character. -/
def rbraceC : Char := Char.ofNat 125

/-- JSON string body: the characters after an opening quote, up to the
closing quote, with the common escapes decoded.  Returns the decoded
content and the input remaining after the closing quote. -/
def jsonStr : List Char → Option (List Char × List Char)
  | [] => none
  | c :: cs =>
    if c = '"' then some ([], cs)
    else if c = '\\' then
      match cs with
      | [] => none
      | e :: cs' =>
        let dec : Option Char :=
          if e = '"' then some '"'
          else if e = '\\' then some '\\'
          else if e = '/' then some '/'
          else if e = 'n' then some '\n'
          else if e = 't' then some '\t'
          else if e = 'r' then some '\r'
          else none
        match dec with
        | none => none
        | some ch =>
          match jsonStr cs' with
          | none => none
          | some (content, rest) => some (ch :: content, rest)
    else
      match jsonStr cs with
      | none => none
      | some (content, rest) => some (c :: content, rest)

/-- Member list of a JSON object with string-valued members, matching
how `json.Unmarshal` fills a `FileOperation`: the values of keys `from`
and `to` are recorded (a later duplicate overwrites), other keys are
ignored.  Returns the field values and the input remaining after the
closing brace.  (The Go decoder also accepts non-string member values
for foreign keys and case-insensitive key matches; no stream handled by
the claims uses either.) -/
def jsonMembers : Nat → List Char → String → String → Option (String × String × List Char)
  | 0, _, _, _ => none
  | fuel + 1, cs, f, t =>
    match cs.dropWhile isSpaceCh with
    | [] => none
    | q :: cs' =>
      if !(q = '"') then none
      else
        match jsonStr cs' with
        | none => none
        | some (key, rest) =>
          match rest.dropWhile isSpaceCh with
          | [] => none
          | colon :: rest' =>
            if !(colon = ':') then none
            else
              match rest'.dropWhile isSpaceCh with
              | [] => none
              | q2 :: rest'' =>
                if !(q2 = '"') then none
                else
                  match jsonStr rest'' with
                  | none => none
                  | some (valChars, rest3) =>
                    let keyS := String.mk key
                    let valS := String.mk valChars
                    let f' := if keyS = "from" then valS else f
                    let t' := if keyS = "to" then valS else t
                    match rest3.dropWhile isSpaceCh with
                    | [] => none
                    | c :: rest4 =>
                      if c = ',' then jsonMembers fuel rest4 f' t'
                      else if c = rbraceC then some (f', t', rest4)
                      else none

/-- Model of `json.Unmarshal(line, &op)` for one `FileOperation`:
exactly one JSON object, surrounded by at most whitespace; a missing
`from` or `to` member leaves the zero value `""`. -/
def parseFromTo (s : String) : Option (String × String) :=
  match s.toList.dropWhile isSpaceCh with
  | [] => none
  | c :: rest =>
    if !(c = lbraceC) then none
    else
      match rest.dropWhile isSpaceCh with
      | [] => none
      | d :: rest' =>
        if d = rbraceC then
          if rest'.dropWhile isSpaceCh = [] then some ("", "") else none
        else
          match jsonMembers (rest.length + 1) (c :: rest).tail "" "" with
          | none => none
          | some (f, t, rem) =>
            if rem.dropWhile isSpaceCh = [] then some (f, t) else none

/-- Failure modes of `parseSingleOperation`: the dedicated "source and
destination are identical" error that `processStream` silently ignores,
and every other (malformed-JSON) error. -/
inductive ParseErr where
  | identicalEndpoints
  | malformed
deriving DecidableEq, Repr

/-- Model of `parseSingleOperation(jsonLine, basePath)`: strip markdown
fences and a trailing comma, unmarshal, join both paths against the
base directory with `filepath.Clean(filepath.Join(...))`, and fail with
the identical-endpoints error when the cleaned paths coincide. -/
def parseSingleOperation (jsonLine basePath : String) : Except ParseErr FileOperation :=
  let l := strTrimPref jsonLine "```json"
  let l := strTrimPref l "```"
  let l := strTrimSuf l "```"
  let l := strTrim l
  let l := strTrimSuf l ","
  match parseFromTo l with
  | none => .error .malformed
  | some (f, t) =>
    let ffrom := goClean (goJoin basePath f)
    let tto := goClean (goJoin basePath t)
    if ffrom = tto then .error .identicalEndpoints
    else .ok ⟨ffrom, tto⟩

/-- State of the accumulator loop of `processStream`: the operations
collected (and delivered) so far, and the buffered partial line. -/
def processChunk (basePath : String) (st : List FileOperation × String)
    (content : String) : List FileOperation × String :=
  if content = "" then st
  else
    let buf := st.2 ++ content
    if strContainsCh buf '\n' then
      let parts := strSplit '\n' buf
      let ops := parts.dropLast.foldl
        (fun acc part =>
          let rawLine := strTrim part
          if !(rawLine = "") then
            match parseSingleOperation rawLine basePath with
            | .ok op => acc ++ [op]
            | .error _ => acc
          else acc)
        st.1
      (ops, parts.getLastD "")
    else (st.1, buf)

/-- Model of the content phase of `processStream`: fold the delta
contents of the stream chunks through the accumulator, then parse a
final unterminated line if one remains.  Every operation appended here
is also what the `onOperation` callback delivered, in the same order
(the source appends and invokes the callback together), so the returned
list is the delivered sequence. -/
def processStream (basePath : String) (chunks : List String) : List FileOperation :=
  let st := chunks.foldl (processChunk basePath) ([], "")
  let remaining := strTrim st.2
  if !(remaining = "") then
    match parseSingleOperation remaining basePath with
    | .ok op => st.1 ++ [op]
    | .error _ => st.1
  else st.1

/-! ## Execution engine (`internal/app/file_service.go`) -/

/-- Model of `OperationResult` (the fields every claim touches). -/
structure OperationResult where
  Operation : FileOperation
  Success : Bool
  ErrVal : Option GoErr
deriving DecidableEq, Repr

/-- Model of `ExecutionResult`. -/
structure ExecutionResult where
  SuccessCount : Nat
  FailCount : Nat
  InitialFileCount : Nat
  FinalFileCount : Nat
  CleanedDirs : Nat
  Operations : List OperationResult
  VerificationError : Option GoErr
deriving DecidableEq, Repr

/-- Common leading fields of two segment lists (the common-prefix loop
of `commonAncestorOfTwo`). -/
def takeCommonInit : List String → List String → List String
  | a :: as', b :: bs' => if a = b then a :: takeCommonInit as' bs' else []
  | _, _ => []

/-- Model of `commonAncestorOfTwo(path1, path2)` (`file_service.go`
lines 216-256): clean both, split with `strings.Split` (keeping empty
fields), take the common leading fields, re-`Join` them, and restore
the leading slash that `Join` swallows when both inputs were absolute. -/
def commonAncestorOfTwo (path1 path2 : String) : String :=
  let p1 := goClean path1
  let p2 := goClean path2
  let bothAbs := isAbsPath p1 && isAbsPath p2
  let parts1 := strSplit '/' p1
  let parts2 := strSplit '/' p2
  let commonParts := takeCommonInit parts1 parts2
  if commonParts = [] then "/"
  else
    let result := goJoinList commonParts
    if bothAbs && !(isAbsPath result) then "/" ++ result else result

/-- Model of `findCommonAncestor(paths)`: left fold of
`commonAncestorOfTwo` starting from the first path. -/
def findCommonAncestor : List String → String
  | [] => ""
  | p :: rest => rest.foldl (fun c q => commonAncestorOfTwo c q) p

/-- Insertion into the `pathsMap` set (Go map keyed by the path). -/
def addPathKey (m : List String) (d : String) : List String :=
  if d ∈ m then m else m ++ [d]

/-- Lexicographic less-or-equal on character lists, by code point
(identical to Go's byte-wise string order for the ASCII paths at
hand). -/
def strLeL : List Char → List Char → Bool
  | [], _ => true
  | _ :: _, [] => false
  | a :: as', b :: bs' => if a = b then strLeL as' bs' else decide (a.toNat < b.toNat)

/-- Lexicographic less-or-equal on strings. -/
def strLe (a b : String) : Bool :=
  strLeL a.toList b.toList

/-- Sorted insertion of a string (helper for `sortStrings`). -/
def insertSorted (x : String) : List String → List String
  | [] => [x]
  | y :: ys => if strLe x y then x :: y :: ys else y :: insertSorted x ys

/-- Model of `sort.Strings` (ascending lexicographic order; `sort.Sort`
is unstable, but the sorted result is unique because the keys come from
a map and are distinct). -/
def sortStrings (l : List String) : List String :=
  l.foldr insertSorted []

/-- Model of `determineVerificationScope(operations, basePath)`
(`file_service.go` lines 145-193): collect the cleaned base plus the
parent directory of every `from`/`to` endpoint whose
`filepath.Rel(base, dir)` exists and starts with `..`; sort; collapse
to the iterated common ancestor when more than one path was found. -/
def determineVerificationScope (ops : List FileOperation) (basePath : String) :
    List String :=
  let base := goClean basePath
  let pathsMap := ops.foldl
    (fun m op =>
      let sourceDir := goDir (goClean op.From)
      let destDir := goDir (goClean op.To)
      let m := match goRel base sourceDir with
        | some r => if strHasPref r ".." then addPathKey m sourceDir else m
        | none => m
      match goRel base destDir with
      | some r => if strHasPref r ".." then addPathKey m destDir else m
      | none => m)
    [base]
  let paths := sortStrings pathsMap
  if 1 < paths.length then [findCommonAncestor paths] else paths

/-- The initial-count loop of `ExecuteOperations`: count files in every
verification path, aborting on the first error (the error return
discards the partial sum).  `countO` returns the files counted before
any walk error together with the error, as `CountFiles` does. -/
def countInitial (countO : String → Nat × Option GoErr) : List String → Except GoErr Nat
  | [] => .ok 0
  | p :: rest =>
    match countO p with
    | (_, some e) => .error e
    | (c, none) =>
      match countInitial countO rest with
      | .error e => .error e
      | .ok n => .ok (c + n)

/-- The final-count loop of `ExecuteOperations`: partial counts are
added even when a path fails, and the last error (if any) lands in
`VerificationError`. -/
def countFinal (countO : String → Nat × Option GoErr) (paths : List String) :
    Nat × Option GoErr :=
  paths.foldl
    (fun acc p =>
      let r := countO p
      (acc.1 + r.1, match r.2 with | some e => some e | none => acc.2))
    (0, none)

/-- The per-operation body of the execution loop of
`ExecuteOperations`: run the operation, append its result, and bump the
matching tally. -/
def execOpsStep (execO : FileOperation → OperationResult)
    (r : ExecutionResult) (op : FileOperation) : ExecutionResult :=
  let opr := execO op
  { r with
    Operations := r.Operations ++ [opr]
    SuccessCount := if opr.Success then r.SuccessCount + 1 else r.SuccessCount
    FailCount := if opr.Success then r.FailCount else r.FailCount + 1 }

/-- Model of `ExecuteOperations(operations, basePath, cleanEmpty)`
(`file_service.go` lines 258-310).  The effectful subroutines are
oracles: `countO` for `CountFiles`, `execO` for `ExecuteOperation` (one
filesystem attempt per operation, yielding its `OperationResult`), and
`cleanO` for `CleanEmptyDirectories`.  The control flow — early return
with an empty result when the initial count fails, one result appended
per operation with the success/fail tallies, optional cleanup, final
loose count — follows the source. -/
def executeOperations (countO : String → Nat × Option GoErr)
    (execO : FileOperation → OperationResult)
    (cleanO : String → Nat × Option GoErr)
    (ops : List FileOperation) (basePath : String) (cleanEmpty : Bool) :
    ExecutionResult × Option GoErr :=
  let verificationPaths := determineVerificationScope ops basePath
  match countInitial countO verificationPaths with
  | .error e =>
    ({ SuccessCount := 0, FailCount := 0, InitialFileCount := 0, FinalFileCount := 0,
       CleanedDirs := 0, Operations := [], VerificationError := some e }, some e)
  | .ok initial =>
    let afterOps := ops.foldl (execOpsStep execO)
      { SuccessCount := 0, FailCount := 0, InitialFileCount := initial, FinalFileCount := 0,
        CleanedDirs := 0, Operations := [], VerificationError := none }
    let afterClean :=
      if cleanEmpty then
        match cleanO basePath with
        | (n, none) => { afterOps with CleanedDirs := n }
        | (_, some _) => afterOps
      else afterOps
    let fin := countFinal countO verificationPaths
    ({ afterClean with
        FinalFileCount := fin.1
        VerificationError := match fin.2 with
          | some e => some e
          | none => afterClean.VerificationError }, none)

/-- Model of the symlink-target recomputation inside `ExecuteOperation`
(`file_service.go` lines 373-393): an absolute target is kept; a
relative target is resolved against the old parent directory, and
`filepath.Rel` from the new parent rebuilds an equivalent relative
target, falling back to the absolute target when `Rel` fails. -/
def adjustSymlinkTarget (opFrom opTo linkTarget : String) : String :=
  if isAbsPath linkTarget then linkTarget
  else
    let symlinkDir := goDir opFrom
    let absoluteTarget := goClean (goJoin symlinkDir linkTarget)
    let newSymlinkDir := goDir opTo
    match goRel newSymlinkDir absoluteTarget with
    | none => absoluteTarget
    | some r => r

/-- Lexical resolution of a symlink target stored at a link living in
directory `linkDir`: an absolute target denotes itself, a relative one
is joined to the link's directory (standard symlink semantics; this is
the spec-side notion of "resolves to"). -/
def resolveLink (linkDir target : String) : String :=
  if isAbsPath target then goClean target else goClean (goJoin linkDir target)

/-- Case-insensitive (ASCII) prefix test: the fold of the prefix is a
prefix of the fold of the string. -/
def ciHasPref (s pre : String) : Bool :=
  (pre.toList.map likeFold).isPrefixOf (s.toList.map likeFold)

/-- Concrete index rows for exercising the scanner. -/
def scanDemoIdx : List IndexedFileRec :=
  [⟨"/base/f1.txt", "", "text", 1, 10, none⟩,
   ⟨"/base/f2.txt", "", "text", 1, 10, none⟩,
   ⟨"/base/gone.txt", "", "text", 1, 10, none⟩,
   ⟨"/base/deep/x.txt", "", "text", 1, 10, none⟩]

/-- Concrete stat oracle: `f2.txt` is stale, everything else matches. -/
def scanDemoStat : String → Option Int :=
  fun p => if p = "/base/f2.txt" then some 11 else some 10

/-- Concrete walk sequence under `/base`: a subtree `deep/` below the
depth bound, plus three files at depth 1. -/
def scanDemoEntries : List WalkEntry :=
  [⟨"deep", true, 0⟩, ⟨"deep/sub", true, 0⟩, ⟨"deep/sub/y.txt", false, 3⟩,
   ⟨"f1.txt", false, 10⟩, ⟨"f2.txt", false, 11⟩, ⟨"f3.txt", false, 3⟩]

/-- Segment-level sub-path test: `d` is the base directory itself or
lies beneath it.  Stated on segments rather than raw strings so that
the root directory `/` correctly contains every absolute path ("lies
outside the base directory" is the negation). -/
def isSubPath (base d : String) : Bool :=
  (segsOf base).isPrefixOf (segsOf d)

/-- All segments of a path are free of a leading `..` (excludes exotic
names like `..b` that the `strings.HasPrefix(rel, "..")` test of the
source would misread as an escape from the base directory). -/
def noDDseg (d : String) : Bool :=
  (segsOf d).all (fun s => !(strHasPref s ".."))

/-- Spec-side reading of the verification scope (used to compare the
code against the claim's words): the parent directories of operation
endpoints that lie outside the base directory, collected in operation
order without duplicates. -/
def specExternalDirs (ops : List FileOperation) (base : String) : List String :=
  ops.foldl
    (fun m op =>
      let sourceDir := goDir (goClean op.From)
      let destDir := goDir (goClean op.To)
      let m := if !(isSubPath base sourceDir) then addPathKey m sourceDir else m
      if !(isSubPath base destDir) then addPathKey m destDir else m)
    []

/-- One conditional insertion of the scope-collection loop of
`determineVerificationScope`: a directory is recorded when
`filepath.Rel(base, dir)` exists and starts with `..`. -/
def scopeAdd (base : String) (m : List String) (d : String) : List String :=
  match goRel base d with
  | some r => if strHasPref r ".." then addPathKey m d else m
  | none => m

/-- The per-operation body of the scope-collection loop: handle the
source parent, then the destination parent. -/
def codeScopeStep (base : String) (m : List String) (op : FileOperation) : List String :=
  scopeAdd base (scopeAdd base m (goDir (goClean op.From))) (goDir (goClean op.To))

/-- Spec-side conditional insertion: a directory is recorded when it
lies outside the base directory. -/
def specAdd (base : String) (m : List String) (d : String) : List String :=
  if !(isSubPath base d) then addPathKey m d else m

/-- Spec-side per-operation body. -/
def specScopeStep (base : String) (m : List String) (op : FileOperation) : List String :=
  specAdd base (specAdd base m (goDir (goClean op.From))) (goDir (goClean op.To))

/-! ## Generic helper lemmas -/

/-- Character list of a concatenation. -/
theorem strToList_append (a b : String) : (a ++ b).toList = a.toList ++ b.toList := by
  cases a; cases b; rfl

/-- Membership in `addPathKey`. -/
theorem mem_addPathKey (m : List String) (d x : String) :
    x ∈ addPathKey m d ↔ x ∈ m ∨ x = d := by
  unfold addPathKey
  by_cases h : d ∈ m
  · simp only [if_pos h]
    constructor
    · exact fun hx => Or.inl hx
    · rintro (hx | rfl)
      · exact hx
      · exact h
  · simp [if_neg h]

/-! ## Claim C4 -/

/-- C4: for every directory-scoped ignore rule whose stripped pattern
contains no glob metacharacters, `shouldIgnore` returns `true` for any
relative path one of whose segments equals the stripped pattern,
whatever the glob library would answer and whether the candidate is a
directory or a file. -/
theorem C4_dir_rule_matches_any_segment
    (patterns : List String) (globO : String → String → Option Bool)
    (rule path : String) (isDir : Bool)
    (hmem : rule ∈ patterns)
    (hdir : strHasSuf rule "/" = true)
    (hstar : strContainsCh (strTrimSuf rule "/") '*' = false)
    (hquest : strContainsCh (strTrimSuf rule "/") '?' = false)
    (hseg : strTrimSuf rule "/" ∈ strSplit '/' path) :
    shouldIgnore patterns globO path isDir = true := by
  unfold shouldIgnore
  have hne : ¬ patterns.length = 0 := by
    intro h0
    rw [List.length_eq_zero] at h0
    subst h0
    simp at hmem
  rw [if_neg hne, List.any_eq_true]
  refine ⟨rule, hmem, ?_⟩
  unfold matchOnePattern
  rw [hdir]
  simp only [if_pos]
  have hcond : (!strContainsCh (strTrimSuf rule "/") '*'
      && !strContainsCh (strTrimSuf rule "/") '?') = true := by
    rw [hstar, hquest]; rfl
  have hany : (strSplit '/' path).any (fun part => part = strTrimSuf rule "/") = true := by
    rw [List.any_eq_true]
    exact ⟨strTrimSuf rule "/", hseg, by simp⟩
  rw [hcond]
  simp only [if_pos]
  rw [hany]
  simp

/-- C4 witness: with the single rule `node_modules/` and a glob oracle
that never matches, both spec examples are ignored. -/
theorem C4_witness :
    ("node_modules/" ∈ ["node_modules/"]) ∧
    shouldIgnore ["node_modules/"] (fun _ _ => some false) "node_modules" true = true ∧
    shouldIgnore ["node_modules/"] (fun _ _ => some false) "src/node_modules/pkg.json" false = true :=
  ⟨by decide,
   C4_dir_rule_matches_any_segment ["node_modules/"] (fun _ _ => some false)
     "node_modules/" "node_modules" true (by decide) (by decide) (by decide) (by decide) (by decide),
   C4_dir_rule_matches_any_segment ["node_modules/"] (fun _ _ => some false)
     "node_modules/" "src/node_modules/pkg.json" false (by decide) (by decide) (by decide) (by decide) (by decide)⟩

/-! ## Claim C8 -/

/-- C8 counterexample: on a path with no index entry, `NeedsReindexing`
returns `(true, nil)` — the successful value `true` with no error — and
not a NotFound failure as the claim states (the stat oracle is not even
consulted). -/
theorem C8_counterexample :
    needsReindexing [] (fun _ => none) "/unindexed.txt" = .ok true := by decide

/-- C8 amended: `needsReindexing(path)` returns `true` with no error
when the path has no index entry; when an entry exists and the live
stat succeeds, it returns true exactly when the live modification time
differs from the stored `lastModified`. -/
theorem C8_amended (idx : List IndexedFileRec) (statMtime : String → Option Int)
    (p : String) (row : IndexedFileRec) (m : Int) :
    (lookupRow idx p = none → needsReindexing idx statMtime p = .ok true) ∧
    (lookupRow idx p = some row → statMtime p = some m →
      needsReindexing idx statMtime p = .ok (decide (m ≠ row.LastModified))) := by
  constructor
  · intro hnone
    unfold needsReindexing isFileIndexed
    rw [hnone]
    rfl
  · intro hrow hstat
    unfold needsReindexing isFileIndexed
    rw [hrow, hstat]
    rfl

/-- C8 amended witness: concrete instances of both branches — an empty
index answers `true`, a fresh entry whose stored mtime matches the live
one answers `false`, and a stale one answers `true`. -/
theorem C8_amended_witness :
    needsReindexing [] (fun _ => some 7) "/f" = .ok true ∧
    needsReindexing [⟨"/f", "", "text", 1, 7, none⟩] (fun _ => some 7) "/f" = .ok false ∧
    needsReindexing [⟨"/f", "", "text", 1, 7, none⟩] (fun _ => some 9) "/f" = .ok true :=
  ⟨(C8_amended [] (fun _ => some 7) "/f" ⟨"/f", "", "text", 1, 7, none⟩ 7).1 (by decide),
   (C8_amended [⟨"/f", "", "text", 1, 7, none⟩] (fun _ => some 7) "/f"
      ⟨"/f", "", "text", 1, 7, none⟩ 7).2 (by decide) (by decide),
   (C8_amended [⟨"/f", "", "text", 1, 7, none⟩] (fun _ => some 9) "/f"
      ⟨"/f", "", "text", 1, 7, none⟩ 9).2 (by decide) (by decide)⟩

/-! ## Claim C3 -/

/-- C3 evaluation at the failing input: for one operation between two
unindexed paths, `CreateSnapshot` captures nothing at all (no "absent"
markers), and with only the source indexed it captures only the source
— the destination's absence is not recorded, so a restore cannot
remove a row later created at the destination. -/
theorem C3_no_absent_markers :
    createSnapshot [] [("/a.txt", "/b/a.txt")] = [] ∧
    createSnapshot [⟨"/a.txt", "d", "text", 1, 5, none⟩] [("/a.txt", "/b/a.txt")]
      = [("/a.txt", some ⟨"/a.txt", "d", "text", 1, 5, none⟩)] := by
  exact ⟨by decide, by decide⟩

/-! ## Claim C5 -/

/-- C5: feeding the stream whose delta contents carry the two lines
`{"from":"a.txt","to":"b/a.txt"}` and `{"from":"c.txt","to":"c.txt"}`
delivers exactly one operation: the second line normalises to identical
endpoints, which `processStream` silently drops without failing the
stream, while the first line's operation is delivered.  The second
conjunct pins down the cause: that line alone parses to the dedicated
identical-endpoints error. -/
theorem C5_identical_endpoints_dropped :
    processStream "/base"
        ["\x7b\"from\":\"a.txt\",\"to\":\"b/a.txt\"\x7d\n\x7b\"from\":\"c.txt\",\"to\":\"c.txt\"\x7d\n"]
      = [⟨"/base/a.txt", "/base/b/a.txt"⟩] ∧
    parseSingleOperation "\x7b\"from\":\"c.txt\",\"to\":\"c.txt\"\x7d" "/base"
      = .error .identicalEndpoints := by
  exact ⟨by decide, by decide⟩

/-! ## Claim C2 -/

/-- C2 evaluation at the failing input: restoring a snapshot of two
captured records into an empty store, where the second upsert's
`db.Exec` fails, returns the error — but the first record's upsert has
already been autocommitted outside the never-used `*sql.Tx`, so the
store is left half-restored (`rows = [recA]`, not the original `[]`).
The transaction wrapping of `RestoreSnapshot` protects nothing. -/
theorem C2_restore_not_atomic :
    restoreSnapshot (fun t => t = 1) ⟨[], false, 0⟩
        [("/a", some ⟨"/a", "da", "text", 1, 5, none⟩),
         ("/b", some ⟨"/b", "db", "text", 2, 6, none⟩)]
      = (⟨[⟨"/a", "da", "text", 1, 5, none⟩], false, 2⟩, some .execErr) ∧
    (⟨[⟨"/a", "da", "text", 1, 5, none⟩], false, 2⟩ : DBState).rows ≠ [] := by
  exact ⟨by decide, by decide⟩

/-! ## Claim C10 -/

/-- Characterisation of the per-operation execution fold: results are
appended in input order and the tallies count the success flags; the
other fields are untouched. -/
theorem execOpsFold_spec (execO : FileOperation → OperationResult)
    (ops : List FileOperation) : ∀ r0 : ExecutionResult,
    (ops.foldl (execOpsStep execO) r0).Operations = r0.Operations ++ ops.map execO ∧
    (ops.foldl (execOpsStep execO) r0).SuccessCount
      = r0.SuccessCount + (ops.filter (fun op => (execO op).Success)).length ∧
    (ops.foldl (execOpsStep execO) r0).FailCount
      = r0.FailCount + (ops.filter (fun op => !(execO op).Success)).length ∧
    (ops.foldl (execOpsStep execO) r0).InitialFileCount = r0.InitialFileCount ∧
    (ops.foldl (execOpsStep execO) r0).CleanedDirs = r0.CleanedDirs ∧
    (ops.foldl (execOpsStep execO) r0).VerificationError = r0.VerificationError := by
  induction ops with
  | nil => intro r0; simp
  | cons op rest ih =>
    intro r0
    have h := ih (execOpsStep execO r0 op)
    simp only [List.foldl_cons] at *
    obtain ⟨h1, h2, h3, h4, h5, h6⟩ := h
    refine ⟨?_, ?_, ?_, ?_, ?_, ?_⟩
    · rw [h1]
      by_cases hs : (execO op).Success <;> simp [execOpsStep, hs]
    · rw [h2]
      by_cases hs : (execO op).Success <;> simp [execOpsStep, hs] <;> omega
    · rw [h3]
      by_cases hs : (execO op).Success <;> simp [execOpsStep, hs] <;> omega
    · rw [h4]; rfl
    · rw [h5]; rfl
    · rw [h6]; rfl

/-- C10 counterexample: when the initial verification count fails, the
call aborts early and the returned result carries no `OperationResult`
at all even though one operation was passed in, so the result does not
contain one entry per input operation. -/
theorem C10_counterexample :
    (executeOperations (fun _ => (0, some .countErr)) (fun op => ⟨op, true, none⟩)
        (fun _ => (0, none)) [⟨"/b/x.txt", "/b/y.txt"⟩] "/b" false).1.Operations = [] ∧
    [(⟨"/b/x.txt", "/b/y.txt"⟩ : FileOperation)].length = 1 := by
  exact ⟨by decide, by decide⟩

/-- C10 amended: whenever the initial verification count succeeds, the
returned `ExecutionResult` contains exactly one `OperationResult` per
input operation, in input order (its `Operation` field is the input
operation, which `ExecuteOperation` always sets), and `SuccessCount`
and `FailCount` tally exactly the operations whose result carries
`Success = true` resp. `false`, summing to the number of inputs. -/
theorem C10_amended (countO : String → Nat × Option GoErr)
    (execO : FileOperation → OperationResult) (cleanO : String → Nat × Option GoErr)
    (ops : List FileOperation) (basePath : String) (cleanEmpty : Bool) (n : Nat)
    (hcount : countInitial countO (determineVerificationScope ops basePath) = .ok n)
    (hop : ∀ op, (execO op).Operation = op) :
    ((executeOperations countO execO cleanO ops basePath cleanEmpty).1.Operations.map
        (fun o => o.Operation)) = ops ∧
    (executeOperations countO execO cleanO ops basePath cleanEmpty).1.SuccessCount
      = (ops.filter (fun op => (execO op).Success)).length ∧
    (executeOperations countO execO cleanO ops basePath cleanEmpty).1.FailCount
      = (ops.filter (fun op => !(execO op).Success)).length ∧
    (executeOperations countO execO cleanO ops basePath cleanEmpty).1.SuccessCount
        + (executeOperations countO execO cleanO ops basePath cleanEmpty).1.FailCount
      = ops.length := by
  simp only [executeOperations, hcount]
  have hfold := execOpsFold_spec execO ops
    { SuccessCount := 0, FailCount := 0, InitialFileCount := n, FinalFileCount := 0,
      CleanedDirs := 0, Operations := [], VerificationError := none }
  obtain ⟨h1, h2, h3, _, _, _⟩ := hfold
  set folded := ops.foldl (execOpsStep execO)
    { SuccessCount := 0, FailCount := 0, InitialFileCount := n, FinalFileCount := 0,
      CleanedDirs := 0, Operations := [], VerificationError := none } with hfoldedDef
  have hclean :
      (if cleanEmpty then
          match cleanO basePath with
          | (cn, none) => { folded with CleanedDirs := cn }
          | (_, some _) => folded
        else folded).Operations = folded.Operations ∧
      (if cleanEmpty then
          match cleanO basePath with
          | (cn, none) => { folded with CleanedDirs := cn }
          | (_, some _) => folded
        else folded).SuccessCount = folded.SuccessCount ∧
      (if cleanEmpty then
          match cleanO basePath with
          | (cn, none) => { folded with CleanedDirs := cn }
          | (_, some _) => folded
        else folded).FailCount = folded.FailCount := by
    by_cases hc : cleanEmpty
    · simp only [if_pos hc]
      rcases cleanO basePath with ⟨cn, e⟩
      cases e <;> simp
    · simp [if_neg hc]
  obtain ⟨hc1, hc2, hc3⟩ := hclean
  simp only [hc1, hc2, hc3]
  rw [h1, h2, h3]
  simp only [List.nil_append, Nat.zero_add, List.map_map]
  refine ⟨?_, trivial, trivial, ?_⟩
  · have hco : (fun o => OperationResult.Operation o) ∘ execO = fun op => (execO op).Operation := rfl
    rw [hco]
    have hid : (fun op => (execO op).Operation) = fun op => op := by
      funext op; exact hop op
    rw [hid, List.map_id']
  · have hlen := List.length_eq_length_filter_add (l := ops) (fun op => (execO op).Success)
    simpa using hlen.symm

/-- C10 amended witness: a two-operation batch (one succeeding, one
failing) with a healthy count oracle produces one result per operation
in order, and tallies 1 and 1. -/
theorem C10_amended_witness :
    ((executeOperations (fun _ => (2, none))
        (fun op => ⟨op, decide (op.From = "/b/x.txt"), none⟩) (fun _ => (0, none))
        [⟨"/b/x.txt", "/b/y.txt"⟩, ⟨"/b/u.txt", "/b/v.txt"⟩] "/b" true).1.Operations.map
      (fun o => o.Operation))
      = [⟨"/b/x.txt", "/b/y.txt"⟩, ⟨"/b/u.txt", "/b/v.txt"⟩] ∧
    (executeOperations (fun _ => (2, none))
        (fun op => ⟨op, decide (op.From = "/b/x.txt"), none⟩) (fun _ => (0, none))
        [⟨"/b/x.txt", "/b/y.txt"⟩, ⟨"/b/u.txt", "/b/v.txt"⟩] "/b" true).1.SuccessCount
        + (executeOperations (fun _ => (2, none))
        (fun op => ⟨op, decide (op.From = "/b/x.txt"), none⟩) (fun _ => (0, none))
        [⟨"/b/x.txt", "/b/y.txt"⟩, ⟨"/b/u.txt", "/b/v.txt"⟩] "/b" true).1.FailCount = 2 :=
  ⟨(C10_amended (fun _ => (2, none)) (fun op => ⟨op, decide (op.From = "/b/x.txt"), none⟩)
      (fun _ => (0, none)) [⟨"/b/x.txt", "/b/y.txt"⟩, ⟨"/b/u.txt", "/b/v.txt"⟩] "/b" true 2
      (by decide) (fun op => rfl)).1,
   by
    have h := (C10_amended (fun _ => (2, none)) (fun op => ⟨op, decide (op.From = "/b/x.txt"), none⟩)
      (fun _ => (0, none)) [⟨"/b/x.txt", "/b/y.txt"⟩, ⟨"/b/u.txt", "/b/v.txt"⟩] "/b" true 2
      (by decide) (fun op => rfl)).2.2.2
    rw [h]
    decide⟩

/-! ## Claim C9 -/

/-- C9 counterexample: the source interpolates the cleaned directory
into an SQL LIKE pattern without escaping, so a `_` in the directory
path acts as a one-character wildcard: querying the (already clean)
directory `/a_b` returns the entry `/axb/f.txt`, which neither equals
`/a_b` nor lies beneath it. -/
theorem C9_counterexample :
    getIndexedFilesInDirectory [⟨"/axb/f.txt", "", "text", 1, 0, none⟩] "/a_b"
      = [⟨"/axb/f.txt", "", "text", 1, 0, none⟩] ∧
    goClean "/a_b" = "/a_b" ∧
    strHasPref "/axb/f.txt" ("/a_b" ++ "/") = false ∧
    ¬ ("/axb/f.txt" = "/a_b") := by
  exact ⟨by decide, by decide, by decide, by decide⟩

/-- Unfolding equation of `likeMatchL` at a cons pattern. -/
theorem likeMatchL_cons (p : Char) (ps : List Char) (s : List Char) :
    likeMatchL (p :: ps) s =
      if p = '%' then anySuffix (likeMatchL ps) s
      else
        match s with
        | [] => false
        | c :: s' =>
          if p = '_' then likeMatchL ps s'
          else decide (likeFold p = likeFold c) && likeMatchL ps s' := rfl

/-- A suffix-search over `likeMatchL []` always succeeds (the empty
tail suffix matches). -/
theorem anySuffix_likeNil (s : List Char) : anySuffix (likeMatchL []) s = true := by
  induction s with
  | nil => rfl
  | cons c s' ih => simp [anySuffix, ih]

/-- A trailing lone `%` matches every string. -/
theorem likeMatch_pct_all (s : List Char) : likeMatchL ['%'] s = true := by
  rw [likeMatchL_cons, if_pos rfl]
  exact anySuffix_likeNil s

/-- A LIKE pattern consisting of wildcard-free characters followed by a
single `%` matches exactly the strings whose ASCII-case-folded form
starts with the folded pattern characters. -/
theorem likeMatch_trailing_pct (pre : List Char)
    (h : ∀ c ∈ pre, ¬ c = '%' ∧ ¬ c = '_') : ∀ s : List Char,
    likeMatchL (pre ++ ['%']) s = (pre.map likeFold).isPrefixOf (s.map likeFold) := by
  induction pre with
  | nil =>
    intro s
    simpa using likeMatch_pct_all s
  | cons p pre' ih =>
    intro s
    have hp := h p (by simp)
    have hrest : ∀ c ∈ pre', ¬ c = '%' ∧ ¬ c = '_' := fun c hc => h c (by simp [hc])
    cases s with
    | nil =>
      rw [List.cons_append, likeMatchL_cons, if_neg hp.1]
      simp [List.isPrefixOf]
    | cons c s' =>
      have hstep : likeMatchL ((p :: pre') ++ ['%']) (c :: s')
          = (decide (likeFold p = likeFold c) && likeMatchL (pre' ++ ['%']) s') := by
        rw [List.cons_append, likeMatchL_cons, if_neg hp.1]
        simp only [if_neg hp.2]
      rw [hstep, ih hrest s']
      simp only [List.map_cons, List.isPrefixOf]
      by_cases hfold : likeFold p = likeFold c
      · simp [hfold]
      · have h1 : decide (likeFold p = likeFold c) = false := by simpa using hfold
        have h2 : (likeFold p == likeFold c) = false := by simpa using hfold
        rw [h1, h2]

/-- C9 amended: for every directory whose cleaned path contains no SQL
LIKE metacharacter (`%` or `_`), `GetIndexedFilesInDirectory` returns
exactly the indexed entries whose path equals the cleaned directory or
whose path starts — ASCII-case-insensitively, because SQLite's default
LIKE folds ASCII letters — with the cleaned separator-terminated
directory.  In particular an entry of a sibling directory that merely
shares a string prefix (for example `/home/user/documents` against the
query `/home/user/doc`) is never returned. -/
theorem C9_amended (idx : List IndexedFileRec) (d : String) (r : IndexedFileRec)
    (hpct : strContainsCh (goClean d) '%' = false)
    (hund : strContainsCh (goClean d) '_' = false) :
    r ∈ getIndexedFilesInDirectory idx d ↔
      r ∈ idx ∧ (ciHasPref r.FilePath (dirSepTerm d) = true ∨ r.FilePath = goClean d) := by
  have hnodmeta : ∀ c ∈ (dirSepTerm d).toList, ¬ c = '%' ∧ ¬ c = '_' := by
    intro c hc
    have hmemClean : ∀ ch ∈ (goClean d).toList, ¬ ch = '%' ∧ ¬ ch = '_' := by
      intro ch hch
      constructor
      · intro hchEq
        subst hchEq
        rw [show strContainsCh (goClean d) '%' = true from
          List.elem_eq_true_of_mem (by simpa using hch)] at hpct
        cases hpct
      · intro hchEq
        subst hchEq
        rw [show strContainsCh (goClean d) '_' = true from
          List.elem_eq_true_of_mem (by simpa using hch)] at hund
        cases hund
    unfold dirSepTerm at hc
    simp only at hc
    by_cases hsuf : strHasSuf (goClean d) "/"
    · rw [if_pos hsuf] at hc
      exact hmemClean c hc
    · rw [if_neg hsuf, strToList_append] at hc
      rcases List.mem_append.mp hc with hin | hin
      · exact hmemClean c hin
      · have : c = '/' := by simpa using hin
        subst this
        exact ⟨by decide, by decide⟩
  have hlike : sqlLike (dirPattern d) r.FilePath = ciHasPref r.FilePath (dirSepTerm d) := by
    unfold sqlLike dirPattern ciHasPref
    rw [strToList_append]
    have : ("%" : String).toList = ['%'] := rfl
    rw [this]
    exact likeMatch_trailing_pct (dirSepTerm d).toList hnodmeta r.FilePath.toList
  unfold getIndexedFilesInDirectory
  rw [List.mem_filter]
  constructor
  · rintro ⟨hmem, hcond⟩
    refine ⟨hmem, ?_⟩
    rcases Bool.or_eq_true_iff.mp hcond with hcl | hcr
    · exact Or.inl (hlike ▸ hcl)
    · exact Or.inr (by simpa using hcr)
  · rintro ⟨hmem, hcond⟩
    refine ⟨hmem, ?_⟩
    rcases hcond with hcl | hcr
    · exact Bool.or_eq_true_iff.mpr (Or.inl (hlike ▸ hcl))
    · exact Bool.or_eq_true_iff.mpr (Or.inr (by simpa using hcr))

/-- C9 amended witness: with entries under `/home/user/doc` and
`/home/user/documents`, querying `/home/user/doc` returns the former
and not the latter. -/
theorem C9_amended_witness :
    (⟨"/home/user/doc/f.txt", "", "text", 1, 0, none⟩ ∈
      getIndexedFilesInDirectory
        [⟨"/home/user/doc/f.txt", "", "text", 1, 0, none⟩,
         ⟨"/home/user/documents/g.txt", "", "text", 1, 0, none⟩] "/home/user/doc"
      ↔ (⟨"/home/user/doc/f.txt", "", "text", 1, 0, none⟩ : IndexedFileRec) ∈
          [⟨"/home/user/doc/f.txt", "", "text", 1, 0, none⟩,
           ⟨"/home/user/documents/g.txt", "", "text", 1, 0, none⟩] ∧
        (ciHasPref "/home/user/doc/f.txt" (dirSepTerm "/home/user/doc") = true ∨
          "/home/user/doc/f.txt" = goClean "/home/user/doc")) ∧
    (⟨"/home/user/documents/g.txt", "", "text", 1, 0, none⟩ ∈
      getIndexedFilesInDirectory
        [⟨"/home/user/doc/f.txt", "", "text", 1, 0, none⟩,
         ⟨"/home/user/documents/g.txt", "", "text", 1, 0, none⟩] "/home/user/doc"
      ↔ (⟨"/home/user/documents/g.txt", "", "text", 1, 0, none⟩ : IndexedFileRec) ∈
          [⟨"/home/user/doc/f.txt", "", "text", 1, 0, none⟩,
           ⟨"/home/user/documents/g.txt", "", "text", 1, 0, none⟩] ∧
        (ciHasPref "/home/user/documents/g.txt" (dirSepTerm "/home/user/doc") = true ∨
          "/home/user/documents/g.txt" = goClean "/home/user/doc")) :=
  ⟨C9_amended _ "/home/user/doc" _ (by decide) (by decide),
   C9_amended _ "/home/user/doc" _ (by decide) (by decide)⟩

/-! ## Claim C1 -/

/-- Characterisation of the classification fold of
`ScanDirectoryChanges`: each walked path lands in `currentFiles`, and
in exactly the list its index status and `NeedsReindexing` outcome
dictate. -/
theorem classifyFold_eq (idx : List IndexedFileRec) (dirPath : String)
    (statMtime : String → Option Int) :
    ∀ (ps : List String) (st0 : ScanState),
    ps.foldl (classifyStep idx dirPath statMtime) st0 =
      ⟨st0.newFiles ++ ps.filter (fun p => !(inIndexedMap idx dirPath p)),
       st0.modifiedFiles ++ ps.filter (fun p => inIndexedMap idx dirPath p
          && decide (needsReindexing idx statMtime p = .ok true)),
       st0.unchangedFiles ++ ps.filter (fun p => inIndexedMap idx dirPath p
          && decide (needsReindexing idx statMtime p = .ok false)),
       st0.currentFiles ++ ps⟩ := by
  intro ps
  induction ps with
  | nil => intro st0; simp
  | cons p rest ih =>
    intro st0
    rw [List.foldl_cons, ih (classifyStep idx dirPath statMtime st0 p)]
    by_cases hidx : inIndexedMap idx dirPath p = true
    · rcases hneed : needsReindexing idx statMtime p with e | b
      · simp [classifyStep, hidx, hneed, List.filter_cons]
      · cases b
        · simp [classifyStep, hidx, hneed, List.filter_cons]
        · simp [classifyStep, hidx, hneed, List.filter_cons]
    · simp [classifyStep, hidx, List.filter_cons]

/-- A path in the `indexedMap` has an index row, hence `IsFileIndexed`
holds for it. -/
theorem isFileIndexed_of_inIndexedMap (idx : List IndexedFileRec) (dirPath p : String)
    (h : inIndexedMap idx dirPath p = true) : isFileIndexed idx p = true := by
  unfold inIndexedMap at h
  rw [List.any_eq_true] at h
  obtain ⟨r, hr, hrp⟩ := h
  have hrIdx : r ∈ idx := (List.mem_filter.mp hr).1
  unfold isFileIndexed lookupRow
  rw [List.find?_isSome]
  exact ⟨r, hrIdx, hrp⟩

/-- C1: the four lists returned by one `ScanDirectoryChanges` call are
pairwise disjoint; together they cover (i) every file the depth-bounded,
ignore-filtered walk reaches on disk — provided the live stat of each
such file succeeds, as it does on a quiescent filesystem — and (ii)
every indexed path under the directory lying within the depth bound;
and depth bounding applies symmetrically to deletion: a path beyond
`maxDepth` (when `maxDepth > 0`, measured exactly as the source
measures it) is never reported deleted. -/
theorem C1_scan_partition (idx : List IndexedFileRec) (patterns : Option (List String))
    (globO : String → String → Option Bool) (statMtime : String → Option Int)
    (entries : List WalkEntry) (dirPath : String) (maxDepth : Int)
    (hstat : ∀ pm ∈ walkVisit patterns globO dirPath maxDepth entries,
      (statMtime pm.1).isSome) :
    ((∀ p ∈ (scanDirectoryChanges idx patterns globO statMtime entries dirPath maxDepth).NewFiles,
        p ∉ (scanDirectoryChanges idx patterns globO statMtime entries dirPath maxDepth).ModifiedFiles ∧
        p ∉ (scanDirectoryChanges idx patterns globO statMtime entries dirPath maxDepth).UnchangedFiles ∧
        p ∉ (scanDirectoryChanges idx patterns globO statMtime entries dirPath maxDepth).DeletedFiles) ∧
     (∀ p ∈ (scanDirectoryChanges idx patterns globO statMtime entries dirPath maxDepth).ModifiedFiles,
        p ∉ (scanDirectoryChanges idx patterns globO statMtime entries dirPath maxDepth).UnchangedFiles ∧
        p ∉ (scanDirectoryChanges idx patterns globO statMtime entries dirPath maxDepth).DeletedFiles) ∧
     (∀ p ∈ (scanDirectoryChanges idx patterns globO statMtime entries dirPath maxDepth).UnchangedFiles,
        p ∉ (scanDirectoryChanges idx patterns globO statMtime entries dirPath maxDepth).DeletedFiles)) ∧
    (∀ p, (p ∈ (walkVisit patterns globO dirPath maxDepth entries).map Prod.fst ∨
           (p ∈ (getIndexedFilesInDirectory idx dirPath).map (fun r => r.FilePath) ∧
             (maxDepth = 0 ∨ depthOfIn dirPath p ≤ maxDepth))) →
       (p ∈ (scanDirectoryChanges idx patterns globO statMtime entries dirPath maxDepth).NewFiles ∨
        p ∈ (scanDirectoryChanges idx patterns globO statMtime entries dirPath maxDepth).ModifiedFiles ∨
        p ∈ (scanDirectoryChanges idx patterns globO statMtime entries dirPath maxDepth).UnchangedFiles ∨
        p ∈ (scanDirectoryChanges idx patterns globO statMtime entries dirPath maxDepth).DeletedFiles)) ∧
    (∀ p ∈ (scanDirectoryChanges idx patterns globO statMtime entries dirPath maxDepth).DeletedFiles,
       0 < maxDepth → depthOfIn dirPath p ≤ maxDepth) := by
  have hwalk : scanWalk idx patterns globO statMtime entries dirPath maxDepth =
      ((walkVisit patterns globO dirPath maxDepth entries).map Prod.fst).foldl
        (classifyStep idx dirPath statMtime) ⟨[], [], [], []⟩ := by
    unfold scanWalk
    rw [List.foldl_map]
  set paths := (walkVisit patterns globO dirPath maxDepth entries).map Prod.fst with hpaths
  have hfold := classifyFold_eq idx dirPath statMtime paths ⟨[], [], [], []⟩
  have hch : scanDirectoryChanges idx patterns globO statMtime entries dirPath maxDepth =
      ⟨paths.filter (fun p => !(inIndexedMap idx dirPath p)),
       ((getIndexedFilesInDirectory idx dirPath).map (fun r => r.FilePath)).filter
         (fun p => (maxDepth = 0 || decide (depthOfIn dirPath p ≤ maxDepth))
           && !(paths.contains p)),
       paths.filter (fun p => inIndexedMap idx dirPath p
          && decide (needsReindexing idx statMtime p = .ok true)),
       paths.filter (fun p => inIndexedMap idx dirPath p
          && decide (needsReindexing idx statMtime p = .ok false))⟩ := by
    simp only [scanDirectoryChanges]
    rw [hwalk, hfold]
    simp
  rw [hch]
  simp only
  -- characterise needsReindexing on indexed, statable paths
  have hneedOk : ∀ p ∈ paths, inIndexedMap idx dirPath p = true →
      ∃ b : Bool, needsReindexing idx statMtime p = .ok b := by
    intro p hp hidx
    obtain ⟨pm, hpm, hpm1⟩ := List.mem_map.mp hp
    have hsome := hstat pm hpm
    rw [hpm1] at hsome
    obtain ⟨m, hm⟩ := Option.isSome_iff_exists.mp hsome
    have hindexed := isFileIndexed_of_inIndexedMap idx dirPath p hidx
    unfold needsReindexing
    rw [hindexed]
    simp only [Bool.not_true, Bool.false_eq_true, if_false, hm]
    have hrow : ∃ row, lookupRow idx p = some row := by
      unfold isFileIndexed at hindexed
      exact Option.isSome_iff_exists.mp hindexed
    obtain ⟨row, hrowEq⟩ := hrow
    rw [hrowEq]
    exact ⟨decide (m ≠ row.LastModified), rfl⟩
  refine ⟨⟨?_, ?_, ?_⟩, ?_, ?_⟩
  · intro p hp
    have hNp := (List.mem_filter.mp hp).2
    refine ⟨?_, ?_, ?_⟩
    · intro hq
      have hFp := (List.mem_filter.mp hq).2
      simp only [Bool.not_eq_true'] at hNp
      rw [Bool.and_eq_true] at hFp
      rw [hFp.1] at hNp
      cases hNp
    · intro hq
      have hGp := (List.mem_filter.mp hq).2
      simp only [Bool.not_eq_true'] at hNp
      rw [Bool.and_eq_true] at hGp
      rw [hGp.1] at hNp
      cases hNp
    · intro hq
      have hd := (List.mem_filter.mp hq).2
      rw [Bool.and_eq_true] at hd
      have hpmem := (List.mem_filter.mp hp).1
      have : paths.contains p = true := List.elem_eq_true_of_mem hpmem
      rw [this] at hd
      cases hd.2
  · intro p hp
    have hFp := (List.mem_filter.mp hp).2
    rw [Bool.and_eq_true] at hFp
    refine ⟨?_, ?_⟩
    · intro hq
      have hGp := (List.mem_filter.mp hq).2
      rw [Bool.and_eq_true] at hGp
      have h1 := of_decide_eq_true hFp.2
      have h2 := of_decide_eq_true hGp.2
      rw [h1] at h2
      cases h2
    · intro hq
      have hd := (List.mem_filter.mp hq).2
      rw [Bool.and_eq_true] at hd
      have hpmem := (List.mem_filter.mp hp).1
      have : paths.contains p = true := List.elem_eq_true_of_mem hpmem
      rw [this] at hd
      cases hd.2
  · intro p hp hq
    have hd := (List.mem_filter.mp hq).2
    rw [Bool.and_eq_true] at hd
    have hpmem := (List.mem_filter.mp hp).1
    have : paths.contains p = true := List.elem_eq_true_of_mem hpmem
    rw [this] at hd
    cases hd.2
  · intro p hp
    rcases hp with hdisk | ⟨hidxMem, hdepth⟩
    · by_cases hidx : inIndexedMap idx dirPath p = true
      · obtain ⟨b, hb⟩ := hneedOk p hdisk hidx
        cases b
        · right; right; left
          exact List.mem_filter.mpr ⟨hdisk, by rw [Bool.and_eq_true]; exact ⟨hidx, by rw [hb]; decide⟩⟩
        · right; left
          exact List.mem_filter.mpr ⟨hdisk, by rw [Bool.and_eq_true]; exact ⟨hidx, by rw [hb]; decide⟩⟩
      · left
        exact List.mem_filter.mpr ⟨hdisk, by simp [hidx]⟩
    · by_cases hdisk : p ∈ paths
      · by_cases hidx : inIndexedMap idx dirPath p = true
        · obtain ⟨b, hb⟩ := hneedOk p hdisk hidx
          cases b
          · right; right; left
            exact List.mem_filter.mpr ⟨hdisk, by rw [Bool.and_eq_true]; exact ⟨hidx, by rw [hb]; decide⟩⟩
          · right; left
            exact List.mem_filter.mpr ⟨hdisk, by rw [Bool.and_eq_true]; exact ⟨hidx, by rw [hb]; decide⟩⟩
        · left
          exact List.mem_filter.mpr ⟨hdisk, by simp [hidx]⟩
      · right; right; right
        refine List.mem_filter.mpr ⟨hidxMem, ?_⟩
        rw [Bool.and_eq_true]
        constructor
        · rw [Bool.or_eq_true]
          rcases hdepth with h0 | hle
          · left; subst h0; simp
          · right; exact decide_eq_true hle
        · rw [Bool.not_eq_true']
          by_contra hcon
          rw [Bool.not_eq_false] at hcon
          exact hdisk (List.mem_of_elem_eq_true hcon)
  · intro p hp hpos
    have hd := (List.mem_filter.mp hp).2
    rw [Bool.and_eq_true] at hd
    rcases Bool.or_eq_true_iff.mp hd.1 with h0 | hle
    · have : maxDepth = 0 := by simpa using h0
      omega
    · exact of_decide_eq_true hle

/-- C1 witness: on the concrete scan (depth bound 1, every walked file
statable) the partition theorem places the walked new file in one of
the four sets, and both example runs of the scanner confirm the
classification concretely. -/
theorem C1_scan_partition_witness :
    ("/base/f3.txt" ∈ (scanDirectoryChanges scanDemoIdx none (fun _ _ => some false)
        scanDemoStat scanDemoEntries "/base" 1).NewFiles ∨
     "/base/f3.txt" ∈ (scanDirectoryChanges scanDemoIdx none (fun _ _ => some false)
        scanDemoStat scanDemoEntries "/base" 1).ModifiedFiles ∨
     "/base/f3.txt" ∈ (scanDirectoryChanges scanDemoIdx none (fun _ _ => some false)
        scanDemoStat scanDemoEntries "/base" 1).UnchangedFiles ∨
     "/base/f3.txt" ∈ (scanDirectoryChanges scanDemoIdx none (fun _ _ => some false)
        scanDemoStat scanDemoEntries "/base" 1).DeletedFiles) :=
  (C1_scan_partition scanDemoIdx none (fun _ _ => some false) scanDemoStat scanDemoEntries
      "/base" 1 (by decide)).2.1 "/base/f3.txt" (Or.inl (by decide))

/-! ## Path machinery: split / join / render lemmas -/

/-- A string is empty iff its character list is. -/
theorem strEmpty_iff (s : String) : s = "" ↔ s.toList = [] := by
  cases s with
  | mk data =>
    constructor
    · intro h; rw [h]; rfl
    · intro h
      have hd : data = [] := h
      subst hd
      rfl

/-- Rebuilding a string from its characters is the identity. -/
theorem strMk_toList (s : String) : String.mk s.toList = s := by
  cases s; rfl

/-- The split of any character list is non-empty. -/
theorem chSplit_ne_nil (c : Char) (l : List Char) : chSplit c l ≠ [] := by
  cases l with
  | nil => simp [chSplit]
  | cons x xs =>
    by_cases hx : x = c
    · simp [chSplit, hx]
    · simp only [chSplit, if_neg hx]
      rcases h : chSplit c xs with _ | _
      · simp
      · simp

/-- Splitting distributes over a separator occurrence. -/
theorem chSplit_sep (c : Char) (xs ys : List Char) :
    chSplit c (xs ++ c :: ys) = chSplit c xs ++ chSplit c ys := by
  induction xs with
  | nil => simp [chSplit]
  | cons x xs' ih =>
    have hstep : ∀ l : List Char, chSplit c (x :: l) =
        if x = c then [] :: chSplit c l
        else
          match chSplit c l with
          | [] => [[x]]
          | h :: t => (x :: h) :: t := fun l => rfl
    by_cases hx : x = c
    · subst hx
      rw [List.cons_append, hstep, hstep, if_pos rfl, if_pos rfl, ih]
      rfl
    · rw [List.cons_append, hstep, hstep, if_neg hx, if_neg hx, ih]
      rcases h1 : chSplit c xs' with _ | ⟨h, t⟩
      · exact absurd h1 (chSplit_ne_nil c xs')
      · rfl

/-- Splitting a list without the separator yields that single field. -/
theorem chSplit_noSep (c : Char) (l : List Char) (h : c ∉ l) : chSplit c l = [l] := by
  induction l with
  | nil => rfl
  | cons x xs ih =>
    have hx : ¬ x = c := fun hcon => h (hcon ▸ List.mem_cons_self x xs)
    have hxs : c ∉ xs := fun hcon => h (List.mem_cons_of_mem x hcon)
    have hstep : chSplit c (x :: xs) =
        if x = c then [] :: chSplit c xs
        else
          match chSplit c xs with
          | [] => [[x]]
          | hseg :: t => (x :: hseg) :: t := rfl
    rw [hstep, if_neg hx, ih hxs]

/-- No field produced by splitting contains the separator. -/
theorem chSplit_mem_no_c (c : Char) (l : List Char) :
    ∀ seg ∈ chSplit c l, c ∉ seg := by
  induction l with
  | nil =>
    intro seg hseg
    simp [chSplit] at hseg
    simp [hseg]
  | cons x xs ih =>
    intro seg hseg
    have hstep : chSplit c (x :: xs) =
        if x = c then [] :: chSplit c xs
        else
          match chSplit c xs with
          | [] => [[x]]
          | hs :: t => (x :: hs) :: t := rfl
    rw [hstep] at hseg
    by_cases hx : x = c
    · rw [if_pos hx] at hseg
      rcases List.mem_cons.mp hseg with hs | hs
      · simp [hs]
      · exact ih seg hs
    · rw [if_neg hx] at hseg
      rcases h1 : chSplit c xs with _ | ⟨hh, t⟩
      · exact absurd h1 (chSplit_ne_nil c xs)
      · rw [h1] at hseg
        rcases List.mem_cons.mp hseg with hs | hs
        · subst hs
          intro hcon
          rcases List.mem_cons.mp hcon with hcc | hcc
          · exact hx hcc.symm
          · exact ih hh (h1 ▸ List.mem_cons_self hh t) hcc
        · exact ih seg (h1 ▸ List.mem_cons_of_mem hh hs)

/-- String-level split across an explicit separator. -/
theorem strSplit_append_sep (a b : String) :
    strSplit '/' (a ++ "/" ++ b) = strSplit '/' a ++ strSplit '/' b := by
  unfold strSplit
  rw [strToList_append, strToList_append]
  have : ("/" : String).toList = ['/'] := rfl
  rw [this, List.append_assoc, List.singleton_append, chSplit_sep, List.map_append]

/-- String-level split after a leading slash. -/
theorem strSplit_slash_pre (b : String) :
    strSplit '/' ("/" ++ b) = "" :: strSplit '/' b := by
  unfold strSplit
  rw [strToList_append]
  have : ("/" : String).toList = ['/'] := rfl
  rw [this]
  have hstep : chSplit '/' ('/' :: b.toList) = [] :: chSplit '/' b.toList := by
    have : chSplit '/' ('/' :: b.toList) =
        if ('/' : Char) = '/' then [] :: chSplit '/' b.toList
        else
          match chSplit '/' b.toList with
          | [] => [['/']]
          | hs :: t => ('/' :: hs) :: t := rfl
    rw [this, if_pos rfl]
  rw [List.singleton_append, hstep]
  rfl

/-- Splitting a slash-free string yields the string itself. -/
theorem strSplit_noSlash (s : String) (h : strContainsCh s '/' = false) :
    strSplit '/' s = [s] := by
  unfold strSplit
  have hmem : '/' ∉ s.toList := by
    intro hcon
    rw [show strContainsCh s '/' = true from List.elem_eq_true_of_mem hcon] at h
    cases h
  rw [chSplit_noSep '/' s.toList hmem]
  simp [strMk_toList]

/-- Splitting inverts joining for slash-free segments. -/
theorem strSplit_joinPath (segs : List String)
    (h : ∀ s ∈ segs, strContainsCh s '/' = false) (hne : segs ≠ []) :
    strSplit '/' (joinPath segs) = segs := by
  induction segs with
  | nil => exact absurd rfl hne
  | cons x rest ih =>
    cases rest with
    | nil =>
      exact strSplit_noSlash x (h x (List.mem_cons_self x []))
    | cons y t =>
      have hx := h x (List.mem_cons_self x (y :: t))
      have hrest : ∀ s ∈ y :: t, strContainsCh s '/' = false :=
        fun s hs => h s (List.mem_cons_of_mem x hs)
      have hjoin : joinPath (x :: y :: t) = x ++ "/" ++ joinPath (y :: t) := rfl
      rw [hjoin, strSplit_append_sep, strSplit_noSlash x hx, ih hrest (by simp)]
      rfl

/-- Every field of a string split is slash-free. -/
theorem strSplit_mem_noSlash (p : String) :
    ∀ s ∈ strSplit '/' p, strContainsCh s '/' = false := by
  intro s hs
  unfold strSplit at hs
  obtain ⟨l, hl, hls⟩ := List.mem_map.mp hs
  have hnc := chSplit_mem_no_c '/' p.toList l hl
  subst hls
  unfold strContainsCh
  rcases hcon : (String.mk l).toList.contains '/' with _ | _
  · rfl
  · exact absurd (List.mem_of_elem_eq_true hcon) (by simpa using hnc)

/-- `renderAbs` is the slash-prefixed join in every case. -/
theorem renderAbs_eq (segs : List String) : renderAbs segs = "/" ++ joinPath segs := by
  unfold renderAbs
  cases segs with
  | nil => rfl
  | cons x t => rfl

/-- Splitting a rendered absolute path recovers a leading empty field
followed by the segments (two empty fields for the root). -/
theorem strSplit_renderAbs (segs : List String)
    (h : ∀ s ∈ segs, goodSeg s = true) :
    strSplit '/' (renderAbs segs) = if segs = [] then ["", ""] else "" :: segs := by
  cases segs with
  | nil =>
    simp only [if_pos rfl]
    rfl
  | cons x t =>
    rw [renderAbs_eq, strSplit_slash_pre]
    have hns : ∀ s ∈ x :: t, strContainsCh s '/' = false := by
      intro s hs
      have := h s hs
      unfold goodSeg at this
      rcases hc : strContainsCh s '/' with _ | _
      · rfl
      · rw [hc] at this; simp at this
    rw [strSplit_joinPath (x :: t) hns (by simp)]
    simp

/-- The segments of a rendered absolute path are the given ones. -/
theorem segsOf_renderAbs (segs : List String)
    (h : ∀ s ∈ segs, goodSeg s = true) : segsOf (renderAbs segs) = segs := by
  unfold segsOf
  rw [strSplit_renderAbs segs h]
  cases segs with
  | nil => rfl
  | cons x t =>
    simp only [if_neg (by simp : ¬ (x :: t = []))]
    have hstep : ("" :: x :: t).filter (fun s => !(s = "")) =
        (x :: t).filter (fun s => !(s = "")) := by simp
    rw [hstep]
    apply List.filter_eq_self.mpr
    intro a ha
    have hg := h a ha
    unfold goodSeg at hg
    simp only [Bool.and_eq_true] at hg
    simpa using hg.1.1.1

/-- A rendered absolute path is rooted. -/
theorem isAbsPath_renderAbs (segs : List String) : isAbsPath (renderAbs segs) = true := by
  rw [renderAbs_eq]
  unfold isAbsPath strHasPref
  rw [strToList_append]
  have : ("/" : String).toList = ['/'] := rfl
  rw [this]
  simp [List.isPrefixOf]

/-- Rendering good segments produces a well-formed absolute path. -/
theorem wfAbs_renderAbs (segs : List String)
    (h : ∀ s ∈ segs, goodSeg s = true) : wfAbs (renderAbs segs) = true := by
  unfold wfAbs
  rw [isAbsPath_renderAbs, segsOf_renderAbs segs h]
  simp [List.all_eq_true.mpr h]

/-- Unpacking a well-formed absolute path into its good segments. -/
theorem wfAbs_elim (p : String) (h : wfAbs p = true) :
    p = renderAbs (segsOf p) ∧ ∀ s ∈ segsOf p, goodSeg s = true := by
  unfold wfAbs at h
  rw [Bool.and_eq_true, Bool.and_eq_true] at h
  refine ⟨?_, ?_⟩
  · have := h.2
    exact (of_decide_eq_true this).symm
  · exact List.all_eq_true.mp h.1.2

/-- Unpacking `goodSeg`. -/
theorem goodSeg_elim (s : String) (h : goodSeg s = true) :
    ¬ s = "" ∧ ¬ s = "." ∧ ¬ s = ".." ∧ strContainsCh s '/' = false := by
  unfold goodSeg at h
  simp only [Bool.and_eq_true] at h
  refine ⟨by simpa using h.1.1.1, by simpa using h.1.1.2, by simpa using h.1.2, ?_⟩
  have := h.2
  rcases hc : strContainsCh s '/' with _ | _
  · rfl
  · rw [hc] at this; simp at this

/-! ## Path machinery: `cleanFold` lemmas -/

/-- One step of `cleanFold` at a cons input. -/
theorem cleanFold_cons (r : Bool) (acc : List String) (s : String) (rest : List String) :
    cleanFold r acc (s :: rest) =
      if s = "" || s = "." then cleanFold r acc rest
      else if s = ".." then
        match acc with
        | [] => if r then cleanFold r [] rest else cleanFold r [".."] rest
        | a :: acc' =>
          if a = ".." then cleanFold r (".." :: a :: acc') rest
          else cleanFold r acc' rest
      else cleanFold r (s :: acc) rest := rfl

/-- `cleanFold` processes list concatenation sequentially. -/
theorem cleanFold_append (r : Bool) (xs ys : List String) :
    ∀ acc, cleanFold r acc (xs ++ ys) = cleanFold r (cleanFold r acc xs) ys := by
  induction xs with
  | nil => intro acc; rfl
  | cons s rest ih =>
    intro acc
    rw [List.cons_append, cleanFold_cons, cleanFold_cons r acc s rest]
    by_cases h1 : (s = "" || s = ".") = true
    · rw [if_pos h1, if_pos h1]
      exact ih acc
    · rw [if_neg h1, if_neg h1]
      by_cases h2 : s = ".."
      · rw [if_pos h2, if_pos h2]
        cases acc with
        | nil =>
          cases r
          · simpa using ih [".."]
          · simpa using ih []
        | cons a acc' =>
          by_cases h3 : a = ".."
          · simpa [h3] using ih (".." :: a :: acc')
          · simpa [h3] using ih acc'
      · rw [if_neg h2, if_neg h2]
        exact ih (s :: acc)

/-- `cleanFold` over good, empty, or dot segments pushes exactly the
good ones (in reverse) onto the accumulator. -/
theorem cleanFold_skips (r : Bool) (xs : List String)
    (h : ∀ s ∈ xs, goodSeg s = true ∨ s = "" ∨ s = ".") :
    ∀ acc, cleanFold r acc xs = (xs.filter goodSeg).reverse ++ acc := by
  induction xs with
  | nil => intro acc; rfl
  | cons s rest ih =>
    intro acc
    have hrest : ∀ q ∈ rest, goodSeg q = true ∨ q = "" ∨ q = "." :=
      fun q hq => h q (List.mem_cons_of_mem s hq)
    rw [cleanFold_cons, List.filter_cons]
    rcases h s (List.mem_cons_self s rest) with hg | he
    · obtain ⟨h1, h2, h3, _⟩ := goodSeg_elim s hg
      rw [if_neg (by simp [h1, h2]), if_neg h3, ih hrest, hg]
      simp
    · have hcond : (s = "" || s = ".") = true := by
        rcases he with he | he
        · rw [he]; rfl
        · rw [he]; rfl
      have hgood : goodSeg s = false := by
        unfold goodSeg
        rcases he with he | he
        · rw [he]; rfl
        · rw [he]; rfl
      rw [if_pos hcond, ih hrest, hgood]
      simp

/-- `cleanFold` over `..` segments pops the stacked good segments. -/
theorem cleanFold_pops (r : Bool) (l : List String) (h : ∀ s ∈ l, ¬ s = "..") :
    ∀ acc, cleanFold r (l ++ acc) (List.replicate l.length "..") = acc := by
  induction l with
  | nil => intro acc; rfl
  | cons a l' ih =>
    intro acc
    have ha := h a (List.mem_cons_self a l')
    have hl' : ∀ s ∈ l', ¬ s = ".." := fun s hs => h s (List.mem_cons_of_mem a hs)
    rw [List.length_cons, List.replicate_succ, cleanFold_cons]
    rw [if_neg (by simp), if_pos rfl]
    simp only [List.cons_append]
    rw [if_neg ha]
    exact ih hl' acc

/-! ## Path machinery: `goClean` on rooted paths -/

/-- `goClean` of a rooted path renders the cleaned segments behind a
slash. -/
theorem goClean_rooted (p : String) (hp : isAbsPath p = true) :
    goClean p = "/" ++ joinPath ((cleanFold true [] (strSplit '/' p)).reverse) := by
  have hne : ¬ p = "" := by
    intro h
    rw [h] at hp
    exact absurd hp (by decide)
  simp only [goClean, if_neg hne, hp, if_true]

/-- The rooted `cleanFold` only ever stacks good segments. -/
theorem cleanFold_good (xs : List String) (h : ∀ s ∈ xs, strContainsCh s '/' = false) :
    ∀ acc, (∀ s ∈ acc, goodSeg s = true) →
      ∀ s ∈ cleanFold true acc xs, goodSeg s = true := by
  induction xs with
  | nil => intro acc hacc; exact hacc
  | cons s rest ih =>
    intro acc hacc
    have hs := h s (List.mem_cons_self s rest)
    have hrest : ∀ q ∈ rest, strContainsCh q '/' = false :=
      fun q hq => h q (List.mem_cons_of_mem s hq)
    rw [cleanFold_cons]
    by_cases h1 : (s = "" || s = ".") = true
    · rw [if_pos h1]
      exact ih hrest acc hacc
    · rw [if_neg h1]
      by_cases h2 : s = ".."
      · rw [if_pos h2]
        cases acc with
        | nil =>
          simp only [if_true]
          exact ih hrest [] (by intro q hq; simp at hq)
        | cons a acc' =>
          by_cases h3 : a = ".."
          · exact absurd (h3 ▸ hacc a (List.mem_cons_self a acc')) (by
              intro hcon
              have := goodSeg_elim ".." hcon
              exact this.2.2.1 rfl)
          · simp only [if_neg h3]
            exact ih hrest acc' (fun q hq => hacc q (List.mem_cons_of_mem a hq))
      · rw [if_neg h2]
        apply ih hrest
        intro q hq
        rcases List.mem_cons.mp hq with hq1 | hq1
        · rw [hq1]
          unfold goodSeg
          have he : ¬ s = "" := by
            intro hcon
            rw [hcon] at h1
            exact h1 (by rfl)
          have hd : ¬ s = "." := by
            intro hcon
            rw [hcon] at h1
            exact h1 (by rfl)
          simp [he, hd, h2, hs]
        · exact hacc q hq1

/-- Cleaning any rooted path yields a well-formed absolute path. -/
theorem wfAbs_goClean (p : String) (hp : isAbsPath p = true) :
    wfAbs (goClean p) = true := by
  rw [goClean_rooted p hp, ← renderAbs_eq]
  apply wfAbs_renderAbs
  intro s hs
  rw [List.mem_reverse] at hs
  exact cleanFold_good (strSplit '/' p) (strSplit_mem_noSlash p) [] (by intro q hq; simp at hq) s hs

/-- Cleaning a well-formed absolute path is the identity. -/
theorem goClean_wfAbs (p : String) (h : wfAbs p = true) : goClean p = p := by
  obtain ⟨hrender, hgood⟩ := wfAbs_elim p h
  have hp : isAbsPath p = true := by
    rw [hrender]
    exact isAbsPath_renderAbs (segsOf p)
  rw [goClean_rooted p hp]
  have hsplit : strSplit '/' p = if segsOf p = [] then ["", ""] else "" :: segsOf p := by
    conv_lhs => rw [hrender]
    exact strSplit_renderAbs (segsOf p) hgood
  rw [hsplit]
  cases hsegs : segsOf p with
  | nil =>
    rw [if_pos rfl]
    have hc : cleanFold true [] ["", ""] = [] := rfl
    rw [hc]
    rw [hsegs] at hrender
    rw [hrender]
    rfl
  | cons x t =>
    rw [if_neg (by simp)]
    rw [hsegs] at hrender hgood
    have hall : ∀ s ∈ "" :: x :: t, goodSeg s = true ∨ s = "" ∨ s = "." := by
      intro s hs
      rcases List.mem_cons.mp hs with h1 | h1
      · exact Or.inr (Or.inl h1)
      · exact Or.inl (hgood s h1)
    rw [cleanFold_skips true ("" :: x :: t) hall []]
    have hflt : ("" :: x :: t).filter goodSeg = x :: t := by
      rw [List.filter_cons]
      have hgs : goodSeg "" = false := rfl
      rw [hgs]
      simp only [Bool.false_eq_true, if_false]
      apply List.filter_eq_self.mpr
      intro a ha
      exact hgood a ha
    rw [hflt]
    simp only [List.append_nil, List.reverse_reverse]
    rw [← renderAbs_eq, hrender]

/-! ## Path machinery: `goJoin` and `goRel` on well-formed paths -/

/-- A path starting with a rooted path is rooted. -/
theorem isAbsPath_append (a b : String) (h : isAbsPath a = true) :
    isAbsPath (a ++ b) = true := by
  unfold isAbsPath strHasPref at *
  rw [strToList_append]
  cases ha : a.toList with
  | nil => rw [ha] at h; simp [List.isPrefixOf] at h
  | cons c cs =>
    rw [ha] at h
    simp [List.isPrefixOf] at h ⊢
    exact h

/-- Joining slash-free non-empty segments yields a relative path. -/
theorem isAbsPath_joinPath (L : List String) (hL : L ≠ [])
    (h : ∀ s ∈ L, ¬ s = "" ∧ strContainsCh s '/' = false) :
    isAbsPath (joinPath L) = false := by
  cases L with
  | nil => exact absurd rfl hL
  | cons x t =>
    have hx := h x (List.mem_cons_self x t)
    have hjoin : ∃ rest : String, joinPath (x :: t) = x ++ rest := by
      cases t with
      | nil => exact ⟨"", by simp [joinPath]⟩
      | cons y t' => exact ⟨"/" ++ joinPath (y :: t'), by simp [joinPath, String.append_assoc]⟩
    obtain ⟨rest, hrest⟩ := hjoin
    rw [hrest]
    unfold isAbsPath strHasPref
    rw [strToList_append]
    cases hxl : x.toList with
    | nil => exact absurd ((strEmpty_iff x).mpr hxl) hx.1
    | cons c cs =>
      have hc : ¬ c = '/' := by
        intro hcon
        have : '/' ∈ x.toList := by rw [hxl, hcon]; exact List.mem_cons_self _ _
        rw [show strContainsCh x '/' = true from List.elem_eq_true_of_mem this] at hx
        exact absurd hx.2 (by simp)
      simp [List.isPrefixOf]
      intro hcp
      exact absurd hcp.symm hc

/-- `dropCommon` splits off a shared leading run. -/
theorem dropCommon_spec : ∀ as bs : List String,
    ∃ com, as = com ++ (dropCommon as bs).1 ∧ bs = com ++ (dropCommon as bs).2 := by
  intro as
  induction as with
  | nil => intro bs; exact ⟨[], by simp [dropCommon]⟩
  | cons a as' ih =>
    intro bs
    cases bs with
    | nil => exact ⟨[], by simp [dropCommon]⟩
    | cons b bs' =>
      by_cases hab : a = b
      · obtain ⟨com, h1, h2⟩ := ih bs'
        refine ⟨a :: com, ?_, ?_⟩
        · simp only [dropCommon, if_pos hab]
          rw [List.cons_append, ← h1]
        · simp only [dropCommon, if_pos hab]
          rw [List.cons_append, ← h2, hab]
      · refine ⟨[], ?_, ?_⟩
        · simp [dropCommon, if_neg hab]
        · simp [dropCommon, if_neg hab]

/-- The base remainder of `dropCommon` is empty exactly when the first
list is a prefix of the second. -/
theorem dropCommon_nil_iff : ∀ as bs : List String,
    (dropCommon as bs).1 = [] ↔ as <+: bs := by
  intro as
  induction as with
  | nil => intro bs; simp [dropCommon]
  | cons a as' ih =>
    intro bs
    cases bs with
    | nil =>
      simp [dropCommon]
    | cons b bs' =>
      by_cases hab : a = b
      · subst hab
        have hstep : dropCommon (a :: as') (a :: bs') = dropCommon as' bs' := by
          simp [dropCommon]
        rw [hstep, ih bs', List.cons_prefix_cons]
        simp
      · simp only [dropCommon, if_neg hab]
        constructor
        · intro hcon; simp at hcon
        · intro hp
          rw [List.cons_prefix_cons] at hp
          exact absurd hp.1 hab

/-- Joining a non-empty suffix onto a rendered absolute path cleans the
suffix segments against that base. -/
theorem goJoin_renderAbs (bs : List String) (hb : ∀ s ∈ bs, goodSeg s = true)
    (t : String) (ht : ¬ t = "") :
    goJoin (renderAbs bs) t =
      "/" ++ joinPath ((cleanFold true bs.reverse (strSplit '/' t)).reverse) := by
  have hrne : ¬ renderAbs bs = "" := by
    intro hcon
    have := isAbsPath_renderAbs bs
    rw [hcon] at this
    exact absurd this (by decide)
  have h1 : goJoin (renderAbs bs) t = goClean (renderAbs bs ++ "/" ++ t) := by
    unfold goJoin
    rw [if_neg (by simp [hrne]), if_neg hrne, if_neg ht]
  rw [h1]
  have habs : isAbsPath (renderAbs bs ++ "/" ++ t) = true :=
    isAbsPath_append _ t (isAbsPath_append _ "/" (isAbsPath_renderAbs bs))
  rw [goClean_rooted _ habs, strSplit_append_sep, strSplit_renderAbs bs hb]
  cases bs with
  | nil =>
    rw [if_pos rfl]
    have : cleanFold true [] (["", ""] ++ strSplit '/' t) =
        cleanFold true (cleanFold true [] ["", ""]) (strSplit '/' t) :=
      cleanFold_append true ["", ""] (strSplit '/' t) []
    rw [this]
    rfl
  | cons x l =>
    rw [if_neg (by simp)]
    have hstep : cleanFold true [] (("" :: x :: l) ++ strSplit '/' t) =
        cleanFold true (cleanFold true [] ("" :: x :: l)) (strSplit '/' t) :=
      cleanFold_append true ("" :: x :: l) (strSplit '/' t) []
    rw [hstep]
    have hsk : cleanFold true [] ("" :: x :: l) = (x :: l).reverse := by
      rw [cleanFold_skips true ("" :: x :: l) ?side []]
      case side =>
        intro s hs
        rcases List.mem_cons.mp hs with hs | hs
        · right; left; exact hs
        · left; exact hb s hs
      rw [List.filter_cons]
      have hgn : goodSeg "" = false := rfl
      rw [if_neg (by rw [hgn]; simp)]
      rw [List.filter_eq_self.mpr ?good]
      case good =>
        intro a ha
        exact hb a ha
      simp
    rw [hsk]

/-- `goRel` between two rendered absolute paths never fails: it returns
`.` for equal paths and otherwise climbs out of the non-shared base
segments and descends into the non-shared target segments. -/
theorem goRel_renderAbs (bs ts : List String)
    (hb : ∀ s ∈ bs, goodSeg s = true) (ht : ∀ s ∈ ts, goodSeg s = true) :
    goRel (renderAbs bs) (renderAbs ts) =
      if renderAbs ts = renderAbs bs then some "."
      else some (joinPath
        (List.replicate (dropCommon bs ts).1.length ".." ++ (dropCommon bs ts).2)) := by
  have hcb := goClean_wfAbs _ (wfAbs_renderAbs bs hb)
  have hct := goClean_wfAbs _ (wfAbs_renderAbs ts ht)
  simp only [goRel, hcb, hct]
  by_cases heq : renderAbs ts = renderAbs bs
  · rw [if_pos heq, if_pos heq]
  · rw [if_neg heq, if_neg heq]
    have hdot : ¬ renderAbs bs = "." := by
      intro hcon
      have := isAbsPath_renderAbs bs
      rw [hcon] at this
      exact absurd this (by decide)
    rw [if_neg hdot, isAbsPath_renderAbs, isAbsPath_renderAbs,
      if_neg (by simp), segsOf_renderAbs bs hb, segsOf_renderAbs ts ht]
    obtain ⟨com, hcom1, hcom2⟩ := dropCommon_spec bs ts
    cases hdc : (dropCommon bs ts).1 with
    | nil => simp
    | cons bhd brem =>
      have hmem : bhd ∈ bs := by
        rw [hcom1, hdc]
        exact List.mem_append_right com (List.mem_cons_self bhd brem)
      have hnd : ¬ bhd = ".." := (goodSeg_elim bhd (hb bhd hmem)).2.2.1
      simp [hnd]

/-- A well-formed absolute path is rooted. -/
theorem isAbsPath_of_wfAbs (d : String) (hd : wfAbs d = true) : isAbsPath d = true := by
  obtain ⟨hr, _⟩ := wfAbs_elim d hd
  rw [hr]
  exact isAbsPath_renderAbs _

/-- Joining anything onto a well-formed absolute path is well-formed. -/
theorem wfAbs_goJoin (d t : String) (hd : wfAbs d = true) : wfAbs (goJoin d t) = true := by
  have habs := isAbsPath_of_wfAbs d hd
  have hdne : ¬ d = "" := by
    intro hcon
    rw [hcon] at habs
    exact absurd habs (by decide)
  by_cases ht0 : t = ""
  · unfold goJoin
    rw [if_neg (by simp [hdne]), if_neg hdne, if_pos ht0, goClean_wfAbs d hd]
    exact hd
  · unfold goJoin
    rw [if_neg (by simp [hdne]), if_neg hdne, if_neg ht0]
    exact wfAbs_goClean _ (isAbsPath_append _ t (isAbsPath_append _ "/" habs))

/-- Joining `.` onto a well-formed absolute path is the identity. -/
theorem goJoin_dot (d : String) (hd : wfAbs d = true) : goJoin d "." = d := by
  obtain ⟨hr, hg⟩ := wfAbs_elim d hd
  conv_lhs => rw [hr]
  rw [goJoin_renderAbs _ hg "." (by decide)]
  have hsplit : strSplit '/' "." = ["."] := strSplit_noSlash "." (by decide)
  rw [hsplit]
  have hcf : cleanFold true (segsOf d).reverse ["."] = (segsOf d).reverse := by
    rw [cleanFold_cons, if_pos (by decide)]
    rfl
  rw [hcf, List.reverse_reverse, ← renderAbs_eq, ← hr]

/-- When `goRel` inside the symlink adjustment returns a path, that path
is the adjusted target. -/
theorem adjustSymlinkTarget_some (opFrom opTo linkTarget r : String)
    (h : isAbsPath linkTarget = false)
    (hr : goRel (goDir opTo) (goClean (goJoin (goDir opFrom) linkTarget)) = some r) :
    adjustSymlinkTarget opFrom opTo linkTarget = r := by
  simp only [adjustSymlinkTarget]
  rw [if_neg (by rw [h]; simp), hr]

/-- Resolving a `..`-climb-then-descend relative target from a rendered
absolute directory lands on the common prefix extended by the descent. -/
theorem resolveLink_climb (cs com brem trem : List String)
    (hcs : cs = com ++ brem)
    (hg : ∀ s ∈ cs, goodSeg s = true)
    (htrem : ∀ s ∈ trem, goodSeg s = true)
    (hne : ¬ (brem = [] ∧ trem = [])) :
    resolveLink (renderAbs cs) (joinPath (List.replicate brem.length ".." ++ trem)) =
      renderAbs (com ++ trem) := by
  have hLnotnil : List.replicate brem.length ".." ++ trem ≠ [] := by
    intro hcon
    obtain ⟨h1, h2⟩ := List.append_eq_nil.mp hcon
    exact hne ⟨List.length_eq_zero.mp (by simpa using h1), h2⟩
  have hLfacts : ∀ s ∈ List.replicate brem.length ".." ++ trem,
      ¬ s = "" ∧ strContainsCh s '/' = false := by
    intro s hs
    rcases List.mem_append.mp hs with hs | hs
    · rw [List.eq_of_mem_replicate hs]
      exact ⟨by decide, by decide⟩
    · have hgood := goodSeg_elim s (htrem s hs)
      exact ⟨hgood.1, hgood.2.2.2⟩
  have hJne : ¬ joinPath (List.replicate brem.length ".." ++ trem) = "" := by
    intro hcon
    have hsp := strSplit_joinPath _ (fun s hs => (hLfacts s hs).2) hLnotnil
    rw [hcon] at hsp
    have h0 : strSplit '/' "" = [""] := rfl
    rw [h0] at hsp
    have hmem : "" ∈ List.replicate brem.length ".." ++ trem := by
      rw [← hsp]
      exact List.mem_singleton_self ""
    exact (hLfacts "" hmem).1 rfl
  have habsL : isAbsPath (joinPath (List.replicate brem.length ".." ++ trem)) = false :=
    isAbsPath_joinPath _ hLnotnil hLfacts
  unfold resolveLink
  rw [if_neg (by rw [habsL]; simp)]
  rw [goJoin_renderAbs cs hg _ hJne,
    strSplit_joinPath _ (fun s hs => (hLfacts s hs).2) hLnotnil, cleanFold_append]
  have hbremgood : ∀ s ∈ brem, ¬ s = ".." := by
    intro s hs
    exact (goodSeg_elim s (hg s (by rw [hcs]; exact List.mem_append_right com hs))).2.2.1
  have hpop : cleanFold true cs.reverse (List.replicate brem.length "..") = com.reverse := by
    rw [hcs, List.reverse_append, ← List.length_reverse brem]
    exact cleanFold_pops true brem.reverse
      (fun s hs => hbremgood s (List.mem_reverse.mp hs)) com.reverse
  rw [hpop, cleanFold_skips true trem (fun s hs => Or.inl (htrem s hs)) com.reverse,
    List.filter_eq_self.mpr (fun a ha => htrem a ha), ← List.reverse_append,
    List.reverse_reverse, ← renderAbs_eq]
  have hgood2 : ∀ s ∈ com ++ trem, goodSeg s = true := by
    intro s hs
    rcases List.mem_append.mp hs with hs | hs
    · exact hg s (by rw [hcs]; exact List.mem_append_left brem hs)
    · exact htrem s hs
  exact goClean_wfAbs _ (wfAbs_renderAbs _ hgood2)

/-- C6: when `ExecuteOperation` moves a symbolic link whose stored
target is relative, the recomputed target written at the destination
resolves (against the destination's parent directory) to exactly the
absolute location the original target resolved to against the source's
parent directory, for any well-formed parent directories. -/
theorem C6_symlink_retarget (opFrom opTo linkTarget : String)
    (hfrom : wfAbs (goDir opFrom) = true) (hto : wfAbs (goDir opTo) = true)
    (hrel : isAbsPath linkTarget = false) :
    resolveLink (goDir opTo) (adjustSymlinkTarget opFrom opTo linkTarget) =
      resolveLink (goDir opFrom) linkTarget := by
  have hnabs : ¬ isAbsPath linkTarget = true := by rw [hrel]; simp
  obtain ⟨hrt, hgt⟩ := wfAbs_elim (goDir opTo) hto
  have hTwf : wfAbs (goJoin (goDir opFrom) linkTarget) = true := wfAbs_goJoin _ linkTarget hfrom
  have hTclean : goClean (goJoin (goDir opFrom) linkTarget) = goJoin (goDir opFrom) linkTarget :=
    goClean_wfAbs _ hTwf
  obtain ⟨hrT, hgT⟩ := wfAbs_elim _ hTwf
  have hres : resolveLink (goDir opFrom) linkTarget = goJoin (goDir opFrom) linkTarget := by
    unfold resolveLink
    rw [if_neg hnabs, hTclean]
  rw [hres]
  have hgoRel : goRel (goDir opTo) (goClean (goJoin (goDir opFrom) linkTarget)) =
      if goJoin (goDir opFrom) linkTarget = goDir opTo then some "."
      else some (joinPath (List.replicate
          (dropCommon (segsOf (goDir opTo))
            (segsOf (goJoin (goDir opFrom) linkTarget))).1.length ".."
        ++ (dropCommon (segsOf (goDir opTo))
            (segsOf (goJoin (goDir opFrom) linkTarget))).2)) := by
    rw [hTclean]
    conv_lhs => rw [hrt, hrT]
    rw [goRel_renderAbs _ _ hgt hgT, ← hrt, ← hrT]
  by_cases hceq : goJoin (goDir opFrom) linkTarget = goDir opTo
  · have hadj : adjustSymlinkTarget opFrom opTo linkTarget = "." :=
      adjustSymlinkTarget_some opFrom opTo linkTarget "." hrel (by rw [hgoRel, if_pos hceq])
    rw [hadj]
    unfold resolveLink
    rw [if_neg (by decide), goJoin_dot _ hto, goClean_wfAbs _ hto]
    exact hceq.symm
  · obtain ⟨com, hcom1, hcom2⟩ :=
      dropCommon_spec (segsOf (goDir opTo)) (segsOf (goJoin (goDir opFrom) linkTarget))
    have hadj : adjustSymlinkTarget opFrom opTo linkTarget =
        joinPath (List.replicate
          (dropCommon (segsOf (goDir opTo))
            (segsOf (goJoin (goDir opFrom) linkTarget))).1.length ".."
        ++ (dropCommon (segsOf (goDir opTo))
            (segsOf (goJoin (goDir opFrom) linkTarget))).2) :=
      adjustSymlinkTarget_some _ _ _ _ hrel (by rw [hgoRel, if_neg hceq])
    rw [hadj]
    generalize hdcgen : dropCommon (segsOf (goDir opTo))
      (segsOf (goJoin (goDir opFrom) linkTarget)) = dc
    rw [hdcgen] at hcom1 hcom2
    have hne : ¬ (dc.1 = [] ∧ dc.2 = []) := by
      rintro ⟨h1, h2⟩
      apply hceq
      rw [h1, List.append_nil] at hcom1
      rw [h2, List.append_nil] at hcom2
      rw [hrT, hrt, hcom1, hcom2]
    have htrem : ∀ s ∈ dc.2, goodSeg s = true := by
      intro s hs
      apply hgT
      rw [hcom2]
      exact List.mem_append_right com hs
    conv_lhs => rw [hrt]
    rw [resolveLink_climb (segsOf (goDir opTo)) com dc.1 dc.2 hcom1 hgt htrem hne,
      ← hcom2, ← hrT]

/-- Witness for C6: the spec's own scenario, a link `dir1/link ->
target.txt` moved to `dir2/link`; both old and new targets resolve to
`/base/dir1/target.txt`. -/
theorem C6_symlink_retarget_witness :
    wfAbs (goDir "/base/dir1/link") = true ∧
    wfAbs (goDir "/base/dir2/link") = true ∧
    isAbsPath "target.txt" = false ∧
    resolveLink (goDir "/base/dir2/link")
        (adjustSymlinkTarget "/base/dir1/link" "/base/dir2/link" "target.txt") =
      resolveLink (goDir "/base/dir1/link") "target.txt" :=
  ⟨by decide, by decide, by decide,
   C6_symlink_retarget "/base/dir1/link" "/base/dir2/link" "target.txt"
     (by decide) (by decide) (by decide)⟩

/-! ## Path machinery: common-prefix and sorting lemmas for the
verification scope -/

/-- The common initial run is a prefix of the first list. -/
theorem takeCommonInit_prefix_left : ∀ as bs : List String, takeCommonInit as bs <+: as := by
  intro as
  induction as with
  | nil => intro bs; cases bs <;> exact List.nil_prefix
  | cons a as' ih =>
    intro bs
    cases bs with
    | nil => exact List.nil_prefix
    | cons b bs' =>
      unfold takeCommonInit
      by_cases h : a = b
      · rw [if_pos h]
        exact List.cons_prefix_cons.mpr ⟨rfl, ih bs'⟩
      · rw [if_neg h]
        exact List.nil_prefix

/-- The common initial run is a prefix of the second list. -/
theorem takeCommonInit_prefix_right : ∀ as bs : List String, takeCommonInit as bs <+: bs := by
  intro as
  induction as with
  | nil => intro bs; cases bs <;> exact List.nil_prefix
  | cons a as' ih =>
    intro bs
    cases bs with
    | nil => exact List.nil_prefix
    | cons b bs' =>
      unfold takeCommonInit
      by_cases h : a = b
      · rw [if_pos h, h]
        exact List.cons_prefix_cons.mpr ⟨rfl, ih bs'⟩
      · rw [if_neg h]
        exact List.nil_prefix

/-- Any common prefix of two lists is a prefix of their common initial
run. -/
theorem takeCommonInit_greatest : ∀ (cs as bs : List String),
    cs <+: as → cs <+: bs → cs <+: takeCommonInit as bs := by
  intro cs
  induction cs with
  | nil => intro as bs _ _; exact List.nil_prefix
  | cons c cs' ih =>
    intro as bs h1 h2
    cases as with
    | nil => exact absurd (List.prefix_nil.mp h1) (by simp)
    | cons a as' =>
      cases bs with
      | nil => exact absurd (List.prefix_nil.mp h2) (by simp)
      | cons b bs' =>
        obtain ⟨hca, h1'⟩ := List.cons_prefix_cons.mp h1
        obtain ⟨hcb, h2'⟩ := List.cons_prefix_cons.mp h2
        unfold takeCommonInit
        rw [if_pos (hca ▸ hcb ▸ rfl)]
        exact List.cons_prefix_cons.mpr ⟨hca, ih as' bs' h1' h2'⟩

/-- A list is a sub-path of itself. -/
theorem isSubPath_self (b : String) : isSubPath b b = true := by
  unfold isSubPath
  exact List.isPrefixOf_iff_prefix.mpr (List.prefix_refl _)

/-- Adding a fresh key distributes over a cons cell it differs from. -/
theorem addPathKey_cons (b d : String) (m : List String) (hne : ¬ d = b) :
    addPathKey (b :: m) d = b :: addPathKey m d := by
  unfold addPathKey
  by_cases h : d ∈ m
  · rw [if_pos (List.mem_cons_of_mem b h), if_pos h]
  · rw [if_neg ?notin, if_neg h]
    case notin =>
      intro hc
      rcases List.mem_cons.mp hc with hc | hc
      · exact hne hc
      · exact h hc
    rfl

/-- Membership after sorted insertion. -/
theorem mem_insertSorted (x p : String) : ∀ l, p ∈ insertSorted x l ↔ p = x ∨ p ∈ l := by
  intro l
  induction l with
  | nil => simp [insertSorted]
  | cons y ys ih =>
    unfold insertSorted
    by_cases h : strLe x y = true
    · rw [if_pos h]
      simp [List.mem_cons]
    · rw [if_neg h]
      simp only [List.mem_cons, ih]
      tauto

/-- Sorted insertion adds one element. -/
theorem length_insertSorted (x : String) : ∀ l, (insertSorted x l).length = l.length + 1 := by
  intro l
  induction l with
  | nil => rfl
  | cons y ys ih =>
    unfold insertSorted
    by_cases h : strLe x y = true
    · rw [if_pos h]
      rfl
    · rw [if_neg h]
      simp [ih]

/-- Sorting preserves membership. -/
theorem mem_sortStrings (p : String) : ∀ l, p ∈ sortStrings l ↔ p ∈ l := by
  intro l
  induction l with
  | nil => simp [sortStrings]
  | cons a l' ih =>
    have hstep : sortStrings (a :: l') = insertSorted a (sortStrings l') := rfl
    rw [hstep, mem_insertSorted, ih, List.mem_cons]

/-- Sorting preserves length. -/
theorem length_sortStrings : ∀ l, (sortStrings l).length = l.length := by
  intro l
  induction l with
  | nil => rfl
  | cons a l' ih =>
    have hstep : sortStrings (a :: l') = insertSorted a (sortStrings l') := rfl
    rw [hstep, length_insertSorted, ih]
    rfl

/-- Joining non-empty slash-free segments gives a non-empty string. -/
theorem joinPath_ne_empty (l : List String) (hne : l ≠ [])
    (h : ∀ s ∈ l, ¬ s = "" ∧ strContainsCh s '/' = false) :
    ¬ joinPath l = "" := by
  intro hcon
  have hsp := strSplit_joinPath l (fun s hs => (h s hs).2) hne
  rw [hcon] at hsp
  have h0 : strSplit '/' "" = [""] := rfl
  rw [h0] at hsp
  have hmem : "" ∈ l := by
    rw [← hsp]
    exact List.mem_singleton_self ""
  exact (h "" hmem).1 rfl

/-- A join led by `..` starts with `..`. -/
theorem strHasPref_joinPath_climb (l : List String) :
    strHasPref (joinPath (".." :: l)) ".." = true := by
  cases l with
  | nil => decide
  | cons y ys =>
    have hj : joinPath (".." :: y :: ys) = ".." ++ "/" ++ joinPath (y :: ys) := rfl
    unfold strHasPref
    rw [hj, strToList_append, strToList_append]
    have h2 : ("..").toList = ['.', '.'] := rfl
    rw [h2]
    simp [List.isPrefixOf]

/-- A join led by a good segment not starting with `..` does not start
with `..`. -/
theorem strHasPref_joinPath_dd (t0 : String) (l : List String)
    (hg : goodSeg t0 = true) (hnd : strHasPref t0 ".." = false) :
    strHasPref (joinPath (t0 :: l)) ".." = false := by
  unfold strHasPref at hnd ⊢
  have hdd : ("..").toList = ['.', '.'] := rfl
  rw [hdd] at hnd ⊢
  cases l with
  | nil => exact hnd
  | cons y ys =>
    have hj : joinPath (t0 :: y :: ys) = t0 ++ "/" ++ joinPath (y :: ys) := rfl
    rw [hj, strToList_append, strToList_append]
    have hslash : ("/").toList = ['/'] := rfl
    rw [hslash]
    cases ht0 : t0.toList with
    | nil => exact absurd ((strEmpty_iff t0).mpr ht0) (goodSeg_elim t0 hg).1
    | cons c1 cs =>
      cases cs with
      | nil => simp [List.isPrefixOf]
      | cons c2 cs2 =>
        rw [ht0] at hnd
        simp only [List.cons_append, List.nil_append, List.isPrefixOf,
          List.append_assoc] at hnd ⊢
        simpa using hnd

/-- Cleaning a slash-join of good segments is the identity. -/
theorem goClean_joinPath_rel (tc : List String)
    (h : ∀ s ∈ tc, goodSeg s = true) (hne : tc ≠ []) :
    goClean (joinPath tc) = joinPath tc := by
  have hfacts : ∀ s ∈ tc, ¬ s = "" ∧ strContainsCh s '/' = false := by
    intro s hs
    obtain ⟨h1, _, _, h4⟩ := goodSeg_elim s (h s hs)
    exact ⟨h1, h4⟩
  have hJne : ¬ joinPath tc = "" := joinPath_ne_empty tc hne hfacts
  have habs : isAbsPath (joinPath tc) = false := isAbsPath_joinPath tc hne hfacts
  simp only [goClean, if_neg hJne, habs]
  rw [strSplit_joinPath tc (fun s hs => (hfacts s hs).2) hne,
    cleanFold_skips false tc (fun s hs => Or.inl (h s hs)) [],
    List.filter_eq_self.mpr (fun a ha => h a ha), List.append_nil,
    List.reverse_reverse]
  simp [if_neg hJne]

/-- On well-formed absolute paths without `..`-leading segment names,
`goRel base d` always succeeds, and its result starts with `..` exactly
when `d` lies outside `base`'s directory subtree. -/
theorem goRel_outside (base d : String) (hb : wfAbs base = true)
    (hd : wfAbs d = true) (hnd : noDDseg d = true) :
    ∃ r, goRel base d = some r ∧
      (strHasPref r ".." = true ↔ isSubPath base d = false) := by
  obtain ⟨hrb, hgb⟩ := wfAbs_elim base hb
  obtain ⟨hrd, hgd⟩ := wfAbs_elim d hd
  have hrel : goRel base d =
      if d = base then some "."
      else some (joinPath (List.replicate
          (dropCommon (segsOf base) (segsOf d)).1.length ".."
        ++ (dropCommon (segsOf base) (segsOf d)).2)) := by
    conv_lhs => rw [hrb, hrd]
    rw [goRel_renderAbs _ _ hgb hgd, ← hrb, ← hrd]
  by_cases heq : d = base
  · rw [hrel, if_pos heq]
    refine ⟨".", rfl, ?_⟩
    constructor
    · intro hc
      exact absurd hc (by decide)
    · intro hc
      rw [heq, isSubPath_self] at hc
      exact absurd hc (by simp)
  · rw [hrel, if_neg heq]
    obtain ⟨com, hcom1, hcom2⟩ := dropCommon_spec (segsOf base) (segsOf d)
    refine ⟨_, rfl, ?_⟩
    cases hdc : (dropCommon (segsOf base) (segsOf d)).1 with
    | nil =>
      rw [hdc, List.append_nil] at hcom1
      have hpre : segsOf base <+: segsOf d := (dropCommon_nil_iff _ _).mp hdc
      have hsub : isSubPath base d = true := by
        unfold isSubPath
        exact List.isPrefixOf_iff_prefix.mpr hpre
      cases htr : (dropCommon (segsOf base) (segsOf d)).2 with
      | nil =>
        exfalso
        apply heq
        rw [htr, List.append_nil] at hcom2
        rw [hrd, hrb, hcom2, hcom1]
      | cons t0 l =>
        have ht0mem : t0 ∈ segsOf d := by
          rw [hcom2, htr]
          exact List.mem_append_right com (List.mem_cons_self t0 l)
        have ht0good : goodSeg t0 = true := hgd t0 ht0mem
        have ht0nd : strHasPref t0 ".." = false := by
          unfold noDDseg at hnd
          have hall := List.all_eq_true.mp hnd t0 ht0mem
          cases h : strHasPref t0 ".."
          · rfl
          · rw [h] at hall
            exact absurd hall (by decide)
        have hfalse : strHasPref (joinPath (List.replicate
            ([] : List String).length ".." ++ (t0 :: l))) ".." = false := by
          simp only [List.length_nil, List.replicate_zero, List.nil_append]
          exact strHasPref_joinPath_dd t0 l ht0good ht0nd
        rw [hfalse, hsub]
        simp
    | cons b0 brem =>
      have hnp : ¬ segsOf base <+: segsOf d := by
        intro hcon
        have hnil := (dropCommon_nil_iff (segsOf base) (segsOf d)).mpr hcon
        rw [hdc] at hnil
        simp at hnil
      have hsub : isSubPath base d = false := by
        unfold isSubPath
        cases h : (segsOf base).isPrefixOf (segsOf d)
        · rfl
        · exact absurd (List.isPrefixOf_iff_prefix.mp h) hnp
      have htrue : strHasPref (joinPath (List.replicate (b0 :: brem).length ".."
          ++ (dropCommon (segsOf base) (segsOf d)).2)) ".." = true := by
        rw [List.length_cons, List.replicate_succ, List.cons_append]
        exact strHasPref_joinPath_climb _
      rw [htrue, hsub]
      simp

/-- `determineVerificationScope` restated through the named step
function. -/
theorem determineVerificationScope_eq (ops : List FileOperation) (basePath : String) :
    determineVerificationScope ops basePath =
      (if 1 < (sortStrings (ops.foldl (codeScopeStep (goClean basePath))
          [goClean basePath])).length
       then [findCommonAncestor (sortStrings (ops.foldl
          (codeScopeStep (goClean basePath)) [goClean basePath]))]
       else sortStrings (ops.foldl (codeScopeStep (goClean basePath))
          [goClean basePath])) := rfl

/-- `specExternalDirs` restated through the named step function. -/
theorem specExternalDirs_eq (ops : List FileOperation) (base : String) :
    specExternalDirs ops base = ops.foldl (specScopeStep base) [] := rfl

/-- On well-formed inputs, one code-side insertion over an accumulator
headed by the base equals the spec-side insertion below the head. -/
theorem scopeAdd_cons (base d : String) (hb : wfAbs base = true)
    (hd : wfAbs d = true) (hnd : noDDseg d = true) (m : List String) :
    scopeAdd base (base :: m) d = base :: specAdd base m d := by
  obtain ⟨r, hr, hiff⟩ := goRel_outside base d hb hd hnd
  unfold scopeAdd specAdd
  simp only [hr]
  by_cases hout : isSubPath base d = false
  · rw [if_pos (hiff.mpr hout), if_pos (by rw [hout]; rfl)]
    have hdb : ¬ d = base := by
      intro hcon
      rw [hcon, isSubPath_self] at hout
      exact absurd hout (by simp)
    exact addPathKey_cons base d m hdb
  · have htrue : isSubPath base d = true := by
      cases h : isSubPath base d
      · exact absurd h hout
      · rfl
    rw [if_neg (fun hc => hout (hiff.mp hc)), if_neg (by rw [htrue]; simp)]

/-- The code's scope-collection fold, seeded with the base directory,
computes the base followed by the spec-side external parents. -/
theorem scope_fold_eq (base : String) (hb : wfAbs base = true) :
    ∀ ops : List FileOperation,
      (∀ op ∈ ops,
        (wfAbs (goDir (goClean op.From)) = true ∧ noDDseg (goDir (goClean op.From)) = true) ∧
        (wfAbs (goDir (goClean op.To)) = true ∧ noDDseg (goDir (goClean op.To)) = true)) →
      ∀ m : List String,
        ops.foldl (codeScopeStep base) (base :: m) =
          base :: ops.foldl (specScopeStep base) m := by
  intro ops
  induction ops with
  | nil => intro _ m; rfl
  | cons op rest ih =>
    intro hops m
    obtain ⟨⟨hw1, hn1⟩, ⟨hw2, hn2⟩⟩ := hops op (List.mem_cons_self op rest)
    rw [List.foldl_cons, List.foldl_cons]
    have hstep : codeScopeStep base (base :: m) op = base :: specScopeStep base m op := by
      unfold codeScopeStep specScopeStep
      rw [scopeAdd_cons base _ hb hw1 hn1 m, scopeAdd_cons base _ hb hw2 hn2 _]
    rw [hstep]
    exact ih (fun op' h' => hops op' (List.mem_cons_of_mem op h')) (specScopeStep base m op)

/-- Every path collected by the spec-side fold is an endpoint parent of
some operation (or was already in the accumulator). -/
theorem mem_spec_fold (base : String) :
    ∀ (ops : List FileOperation) (m : List String) (p : String),
      p ∈ ops.foldl (specScopeStep base) m →
      p ∈ m ∨ ∃ op ∈ ops, p = goDir (goClean op.From) ∨ p = goDir (goClean op.To) := by
  intro ops
  induction ops with
  | nil => intro m p hp; exact Or.inl hp
  | cons op rest ih =>
    intro m p hp
    rw [List.foldl_cons] at hp
    rcases ih (specScopeStep base m op) p hp with hm | ⟨op', hop', hdir⟩
    · unfold specScopeStep specAdd at hm
      split_ifs at hm with h1 h2 h3
      · rcases (mem_addPathKey _ _ _).mp hm with hm' | hm'
        · rcases (mem_addPathKey _ _ _).mp hm' with hm'' | hm''
          · exact Or.inl hm''
          · exact Or.inr ⟨op, List.mem_cons_self op rest, Or.inl hm''⟩
        · exact Or.inr ⟨op, List.mem_cons_self op rest, Or.inr hm'⟩
      · rcases (mem_addPathKey _ _ _).mp hm with hm' | hm'
        · exact Or.inl hm'
        · exact Or.inr ⟨op, List.mem_cons_self op rest, Or.inr hm'⟩
      · rcases (mem_addPathKey _ _ _).mp hm with hm' | hm'
        · exact Or.inl hm'
        · exact Or.inr ⟨op, List.mem_cons_self op rest, Or.inl hm'⟩
      · exact Or.inl hm
    · exact Or.inr ⟨op', List.mem_cons_of_mem op hop', hdir⟩

/-- Elements of the common initial run of two lists are drawn from the
first. -/
theorem takeCommonInit_good (as bs : List String) (ha : ∀ s ∈ as, goodSeg s = true) :
    ∀ s ∈ takeCommonInit as bs, goodSeg s = true :=
  fun s hs => ha s ((takeCommonInit_prefix_left as bs).subset hs)

/-- `commonAncestorOfTwo` on rendered absolute paths renders the common
initial segment run. -/
theorem commonAncestorOfTwo_renderAbs (as bs : List String)
    (ha : ∀ s ∈ as, goodSeg s = true) (hb : ∀ s ∈ bs, goodSeg s = true) :
    commonAncestorOfTwo (renderAbs as) (renderAbs bs) =
      renderAbs (takeCommonInit as bs) := by
  simp only [commonAncestorOfTwo]
  rw [goClean_wfAbs _ (wfAbs_renderAbs as ha), goClean_wfAbs _ (wfAbs_renderAbs bs hb)]
  simp only [isAbsPath_renderAbs]
  cases as with
  | nil =>
    cases bs with
    | nil => decide
    | cons y u =>
      have hs1 : strSplit '/' (renderAbs ([] : List String)) = ["", ""] := by
        rw [strSplit_renderAbs _ ha]
        rfl
      have hs2 : strSplit '/' (renderAbs (y :: u)) = "" :: y :: u := by
        rw [strSplit_renderAbs _ hb]
        rfl
      rw [hs1, hs2]
      have hy : ¬ ("" : String) = y :=
        fun hc => (goodSeg_elim y (hb y (List.mem_cons_self y u))).1 hc.symm
      have h1 : takeCommonInit [""] (y :: u) = [] := by
        unfold takeCommonInit
        rw [if_neg hy]
      have htci : takeCommonInit ["", ""] ("" :: y :: u) = [""] := by
        have h2 : takeCommonInit ["", ""] ("" :: y :: u) =
            "" :: takeCommonInit [""] (y :: u) := rfl
        rw [h2, h1]
      have hr0 : takeCommonInit ([] : List String) (y :: u) = [] := rfl
      rw [htci, hr0]
      decide
  | cons x t =>
    cases bs with
    | nil =>
      have hs1 : strSplit '/' (renderAbs (x :: t)) = "" :: x :: t := by
        rw [strSplit_renderAbs _ ha]
        rfl
      have hs2 : strSplit '/' (renderAbs ([] : List String)) = ["", ""] := by
        rw [strSplit_renderAbs _ hb]
        rfl
      rw [hs1, hs2]
      have hx : ¬ x = "" := (goodSeg_elim x (ha x (List.mem_cons_self x t))).1
      have h1 : takeCommonInit (x :: t) [""] = [] := by
        unfold takeCommonInit
        rw [if_neg hx]
      have htci : takeCommonInit ("" :: x :: t) ["", ""] = [""] := by
        have h2 : takeCommonInit ("" :: x :: t) ["", ""] =
            "" :: takeCommonInit (x :: t) [""] := rfl
        rw [h2, h1]
      have hr0 : takeCommonInit (x :: t) ([] : List String) = [] := rfl
      rw [htci, hr0]
      decide
    | cons y u =>
      have hs1 : strSplit '/' (renderAbs (x :: t)) = "" :: x :: t := by
        rw [strSplit_renderAbs _ ha]
        rfl
      have hs2 : strSplit '/' (renderAbs (y :: u)) = "" :: y :: u := by
        rw [strSplit_renderAbs _ hb]
        rfl
      rw [hs1, hs2]
      have h2 : takeCommonInit ("" :: x :: t) ("" :: y :: u) =
          "" :: takeCommonInit (x :: t) (y :: u) := rfl
      rw [h2]
      cases htc : takeCommonInit (x :: t) (y :: u) with
      | nil => decide
      | cons z zs =>
        have hzgood : ∀ s ∈ z :: zs, goodSeg s = true := by
          intro s hs
          apply takeCommonInit_good (x :: t) (y :: u) ha
          rw [htc]
          exact hs
        have hz : ¬ z = "" := (goodSeg_elim z (hzgood z (List.mem_cons_self z zs))).1
        have hgj : goJoinList ("" :: z :: zs) = goClean (joinPath (z :: zs)) := by
          have hstep1 : goJoinList ("" :: z :: zs) = goJoinList (z :: zs) := rfl
          rw [hstep1]
          unfold goJoinList
          rw [if_neg hz]
        rw [hgj, goClean_joinPath_rel (z :: zs) hzgood (by simp)]
        have habsj : isAbsPath (joinPath (z :: zs)) = false := by
          apply isAbsPath_joinPath _ (by simp)
          intro s hs
          obtain ⟨p1, _, _, p4⟩ := goodSeg_elim s (hzgood s hs)
          exact ⟨p1, p4⟩
        rw [if_neg (by simp), habsj, if_pos (by decide), ← renderAbs_eq]

/-- The `findCommonAncestor` fold over well-formed absolute paths
renders the greatest common segment prefix of the seed and all folded
paths. -/
theorem fca_fold_spec :
    ∀ (ps : List String) (c : String), wfAbs c = true →
      (∀ q ∈ ps, wfAbs q = true) →
      ∃ ds, ps.foldl (fun c q => commonAncestorOfTwo c q) c = renderAbs ds ∧
        (∀ s ∈ ds, goodSeg s = true) ∧
        ds <+: segsOf c ∧ (∀ q ∈ ps, ds <+: segsOf q) ∧
        (∀ cs : List String, cs <+: segsOf c → (∀ q ∈ ps, cs <+: segsOf q) →
          cs <+: ds) := by
  intro ps
  induction ps with
  | nil =>
    intro c hc _
    obtain ⟨hr, hg⟩ := wfAbs_elim c hc
    exact ⟨segsOf c, hr, hg, List.prefix_refl _, by simp, fun cs h1 _ => h1⟩
  | cons q rest ih =>
    intro c hc hq
    rw [List.foldl_cons]
    have hqwf := hq q (List.mem_cons_self q rest)
    obtain ⟨hrc, hgc⟩ := wfAbs_elim c hc
    obtain ⟨hrq, hgq⟩ := wfAbs_elim q hqwf
    have hca : commonAncestorOfTwo c q =
        renderAbs (takeCommonInit (segsOf c) (segsOf q)) := by
      conv_lhs => rw [hrc, hrq]
      exact commonAncestorOfTwo_renderAbs _ _ hgc hgq
    have htcgood : ∀ s ∈ takeCommonInit (segsOf c) (segsOf q), goodSeg s = true :=
      takeCommonInit_good _ _ hgc
    have hwfca : wfAbs (commonAncestorOfTwo c q) = true := by
      rw [hca]
      exact wfAbs_renderAbs _ htcgood
    have hseg : segsOf (commonAncestorOfTwo c q) =
        takeCommonInit (segsOf c) (segsOf q) := by
      rw [hca]
      exact segsOf_renderAbs _ htcgood
    obtain ⟨ds, h1, h2, h3, h4, h5⟩ :=
      ih (commonAncestorOfTwo c q) hwfca (fun r hr => hq r (List.mem_cons_of_mem q hr))
    rw [hseg] at h3 h5
    refine ⟨ds, h1, h2, ?_, ?_, ?_⟩
    · exact h3.trans (takeCommonInit_prefix_left _ _)
    · intro r hr
      rcases List.mem_cons.mp hr with hr | hr
      · rw [hr]
        exact h3.trans (takeCommonInit_prefix_right _ _)
      · exact h4 r hr
    · intro cs hcs1 hcs2
      apply h5
      · exact takeCommonInit_greatest _ _ _ hcs1 (hcs2 q (List.mem_cons_self q rest))
      · intro r hr
        exact hcs2 r (List.mem_cons_of_mem q hr)

/-- C7: the verification scope is the base directory plus the external
parent directories of operation endpoints; with no external parent it
is just the base, and otherwise it collapses to a single directory that
is the greatest common path-prefix ancestor of the base and all
external parents. -/
theorem C7_verification_scope (ops : List FileOperation) (basePath : String)
    (hb : wfAbs basePath = true)
    (hops : ∀ op ∈ ops,
      (wfAbs (goDir (goClean op.From)) = true ∧ noDDseg (goDir (goClean op.From)) = true) ∧
      (wfAbs (goDir (goClean op.To)) = true ∧ noDDseg (goDir (goClean op.To)) = true)) :
    (specExternalDirs ops basePath = [] →
      determineVerificationScope ops basePath = [basePath]) ∧
    (specExternalDirs ops basePath ≠ [] →
      ∃ d, determineVerificationScope ops basePath = [d] ∧ wfAbs d = true ∧
        (∀ p ∈ basePath :: specExternalDirs ops basePath, isSubPath d p = true) ∧
        (∀ c, wfAbs c = true →
          (∀ p ∈ basePath :: specExternalDirs ops basePath, isSubPath c p = true) →
          isSubPath c d = true)) := by
  have hclean : goClean basePath = basePath := goClean_wfAbs _ hb
  have hfold : ops.foldl (codeScopeStep basePath) [basePath] =
      basePath :: specExternalDirs ops basePath := by
    rw [specExternalDirs_eq]
    exact scope_fold_eq basePath hb ops hops []
  have hscope : determineVerificationScope ops basePath =
      (if 1 < (sortStrings (basePath :: specExternalDirs ops basePath)).length
       then [findCommonAncestor (sortStrings (basePath :: specExternalDirs ops basePath))]
       else sortStrings (basePath :: specExternalDirs ops basePath)) := by
    rw [determineVerificationScope_eq, hclean, hfold]
  have hmemwf : ∀ p ∈ basePath :: specExternalDirs ops basePath, wfAbs p = true := by
    intro p hp
    rcases List.mem_cons.mp hp with hp | hp
    · rw [hp]
      exact hb
    · rcases mem_spec_fold basePath ops [] p
        (by rw [← specExternalDirs_eq]; exact hp) with h0 | ⟨op, hop, hdir⟩
      · simp at h0
      · rcases hdir with hd | hd
        · rw [hd]
          exact ((hops op hop).1).1
        · rw [hd]
          exact ((hops op hop).2).1
  constructor
  · intro hext
    rw [hscope, hext]
    have hsort : sortStrings [basePath] = [basePath] := rfl
    rw [hsort, if_neg (by simp)]
  · intro hext
    rw [hscope]
    have hlen : 1 < (sortStrings (basePath :: specExternalDirs ops basePath)).length := by
      rw [length_sortStrings]
      cases hcase : specExternalDirs ops basePath with
      | nil => exact absurd hcase hext
      | cons e es => simp
    rw [if_pos hlen]
    cases hps : sortStrings (basePath :: specExternalDirs ops basePath) with
    | nil =>
      rw [hps] at hlen
      simp at hlen
    | cons p ps =>
      have hwfall : ∀ q ∈ p :: ps, wfAbs q = true := by
        intro q hq
        apply hmemwf
        rw [← mem_sortStrings q (basePath :: specExternalDirs ops basePath), hps]
        exact hq
      obtain ⟨ds, h1, h2, h3, h4, h5⟩ := fca_fold_spec ps p
        (hwfall p (List.mem_cons_self p ps))
        (fun q hq => hwfall q (List.mem_cons_of_mem p hq))
      have hfca : findCommonAncestor (p :: ps) = renderAbs ds := h1
      refine ⟨renderAbs ds, by rw [hfca], wfAbs_renderAbs ds h2, ?_, ?_⟩
      · intro q hq
        have hqin : q ∈ p :: ps := by
          rw [← hps]
          exact (mem_sortStrings q _).mpr hq
        unfold isSubPath
        rw [segsOf_renderAbs ds h2]
        apply List.isPrefixOf_iff_prefix.mpr
        rcases List.mem_cons.mp hqin with hq' | hq'
        · rw [hq']
          exact h3
        · exact h4 q hq'
      · intro c hcwf hcall
        unfold isSubPath
        rw [segsOf_renderAbs ds h2]
        apply List.isPrefixOf_iff_prefix.mpr
        apply h5
        · have hp_in_l : p ∈ basePath :: specExternalDirs ops basePath := by
            rw [← mem_sortStrings, hps]
            exact List.mem_cons_self p ps
          have hsub := hcall p hp_in_l
          unfold isSubPath at hsub
          exact List.isPrefixOf_iff_prefix.mp hsub
        · intro q hq
          have hq_in_l : q ∈ basePath :: specExternalDirs ops basePath := by
            rw [← mem_sortStrings, hps]
            exact List.mem_cons_of_mem p hq
          have hsub := hcall q hq_in_l
          unfold isSubPath at hsub
          exact List.isPrefixOf_iff_prefix.mp hsub

/-- Witness for C7: one operation moving a file out of `/base` into
`/ext/stuff`; the external-parent list is non-empty and the scope
collapses to a single common ancestor. -/
theorem C7_verification_scope_witness :
    specExternalDirs
        [({ From := "/base/docs/a.txt", To := "/ext/stuff/a.txt" } : FileOperation)]
        "/base" ≠ [] ∧
    (∃ d, determineVerificationScope
        [({ From := "/base/docs/a.txt", To := "/ext/stuff/a.txt" } : FileOperation)]
        "/base" = [d] ∧ wfAbs d = true ∧
      (∀ p ∈ "/base" :: specExternalDirs
          [({ From := "/base/docs/a.txt", To := "/ext/stuff/a.txt" } : FileOperation)]
          "/base", isSubPath d p = true) ∧
      (∀ c, wfAbs c = true →
        (∀ p ∈ "/base" :: specExternalDirs
            [({ From := "/base/docs/a.txt", To := "/ext/stuff/a.txt" } : FileOperation)]
            "/base", isSubPath c p = true) →
        isSubPath c d = true)) :=
  ⟨by decide,
   (C7_verification_scope
      [{ From := "/base/docs/a.txt", To := "/ext/stuff/a.txt" }] "/base"
      (by decide) (by decide)).2 (by decide)⟩
